import Mathlib

/-!
Shallow embedding of the schema-processing module of the api-picker
repository (source file: src/openapi.ts).

Documents and schema nodes arrive in the source as loosely-structured
JSON values, so the embedding models them as a JSON value type.  Property
access is modelled per the declared optional-field record types of the
source: accessing a member of a non-object base yields "absent" (the
JavaScript engine would throw on a null base and would expose index
properties of strings; documents exercising those corners are outside the
modelled domain).  JavaScript truthiness is modelled exactly (null, false,
0 and the empty string are falsy; every object and array is truthy).

The two recursive procedures of the source, schemaToTypeText and
walkSchema, are not structurally recursive on their input (they recurse
through reference resolution against the document), so they are embedded
with an explicit fuel parameter: a result of none means the given fuel
was exhausted, and a proof that every fuel yields none is a proof that
the source procedure never returns on that input.
-/

/-- Split a character list at every occurrence of `c`, accumulating the
current segment in reverse (the recursion target of `splitChar`). -/
def splitCharAux (c : Char) : List Char → List Char → List String
  | [], acc => [String.mk acc.reverse]
  | x :: xs, acc =>
    if x = c then String.mk acc.reverse :: splitCharAux c xs []
    else splitCharAux c xs (x :: acc)

/-- `s.split(c)` of JavaScript / `String.splitOn` of the source for a
one-character separator (the source only ever splits on "/"). -/
def splitChar (c : Char) (s : String) : List String :=
  splitCharAux c s.data []

/-- The numeric value of a list of decimal digits. -/
def digitsVal (cs : List Char) : Nat :=
  cs.foldl (fun n c => n * 10 + (c.toNat - 48)) 0

/-- A canonical decimal array index (the only property names under which
JavaScript exposes array elements): "0", or digits without a leading
zero. -/
def canonIdx? (s : String) : Option Nat :=
  match s.data with
  | [] => none
  | c :: cs =>
    if c = '0' then (if cs = [] then some 0 else none)
    else if c.isDigit && cs.all (fun d => d.isDigit) then some (digitsVal (c :: cs))
    else none

/-- A JSON value: the dynamic data the source operates on.  Numbers are
modelled as integers (no claim exercises non-integral numerics). -/
inductive Json where
  | null : Json
  | bool (b : Bool) : Json
  | num (n : Int) : Json
  | str (s : String) : Json
  | arr (xs : List Json) : Json
  | obj (fields : List (String × Json)) : Json

/-- JavaScript truthiness of a value. -/
def Json.truthy : Json → Bool
  | .null => false
  | .bool b => b
  | .num n => n != 0
  | .str s => s != ""
  | .arr _ => true
  | .obj _ => true

/-- Member access `base[key]`: object property lookup, or array element
access for a canonical decimal index.  Absent members yield none. -/
def Json.get? : Json → String → Option Json
  | .obj fields, k => fields.lookup k
  | .arr xs, k =>
    match canonIdx? k with
    | some i => xs.get? i
    | none => none
  | _, _ => none

/-- Member access followed by the null-coalescing test of the `??`
operator: a member that is absent or null is skipped. -/
def Json.getNN (j : Json) (k : String) : Option Json :=
  match j.get? k with
  | some .null => none
  | r => r

/-- `Object.entries` as used by the source on dynamic values: the fields
of an object in declaration order, index entries for an array, and the
empty list otherwise. -/
def Json.toFields : Json → List (String × Json)
  | .obj fields => fields
  | .arr xs => (xs.enum).map (fun p => (toString p.1, p.2))
  | _ => []

/-- A member that is a string, if present. -/
def Json.getStr? (j : Json) (k : String) : Option String :=
  match j.get? k with
  | some (.str s) => some s
  | _ => none

/-- Is the value an object in the sense of `typeof v === 'object'` with
the additional `!v` guard of the source, i.e. a non-null object or
array? -/
def Json.isObjLike : Json → Bool
  | .obj _ => true
  | .arr _ => true
  | _ => false

/-- Is the value an object in the bare `typeof v === 'object'` sense
(null included), as tested on `additionalProperties`? -/
def Json.isTypeofObject : Json → Bool
  | .obj _ => true
  | .arr _ => true
  | .null => true
  | _ => false

/-- The `$ref` member where the source guards with `if (!schema.$ref)`:
a truthy string pointer (the empty string is falsy, hence absent). -/
def refStr (j : Json) : Option String :=
  match j.getStr? "$ref" with
  | some r => if r = "" then none else some r
  | none => none

/-- The `type` member under the source's `if (!type)` truthiness guard. -/
def typeStr (j : Json) : Option String :=
  match j.getStr? "type" with
  | some t => if t = "" then none else some t
  | none => none

/-- The raw `format` member (compared with `===` by the source). -/
def formatStr (j : Json) : Option String :=
  j.getStr? "format"

/-- The raw `description` member. -/
def descStr (j : Json) : Option String :=
  j.getStr? "description"

/-- Truthiness of `v?.length` as tested on the composition keywords:
non-empty arrays (and non-empty strings) have a truthy length; every
other value makes `v?.length` undefined, hence falsy. -/
def lenTruthy : Option Json → Bool
  | some (.arr xs) => !xs.isEmpty
  | some (.str s) => s != ""
  | _ => false

/-- The elements of a member that is an array, else the empty list. -/
def asArr : Option Json → List Json
  | some (.arr xs) => xs
  | _ => []

/-- Truthiness of the `properties` member (`!schema.properties`). -/
def propsTruthy (j : Json) : Bool :=
  match j.get? "properties" with
  | some v => v.truthy
  | none => false

/-- The declared properties in declaration order
(`Object.entries(schema.properties ?? {})`). -/
def propsEntries (j : Json) : List (String × Json) :=
  match j.get? "properties" with
  | some (.obj fields) => fields
  | _ => []

/-- Membership in `new Set(schema.required ?? [])` tested with a string
key: only string elements can compare `===` to the key. -/
def reqHas (j : Json) (key : String) : Bool :=
  match j.get? "required" with
  | some (.arr xs) => xs.any (fun v =>
      match v with
      | .str s => s = key
      | _ => false)
  | _ => false

/-- `String(v)` on a non-array value. -/
def jsStrAtom : Json → String
  | .null => "null"
  | .bool b => if b then "true" else "false"
  | .num n => toString n
  | .str s => s
  | .arr _ => ""
  | .obj _ => "[object Object]"

/-- `String(v)`, as applied by the source to enum values and to the
operation-id when building identifiers.  Arrays stringify their elements
comma-joined; elements that are themselves arrays are modelled only one
level deep (no claim exercises nested arrays in these positions). -/
def jsStr : Json → String
  | .arr xs => String.intercalate "," (xs.map jsStrAtom)
  | v => jsStrAtom v

/-- Source `refToName`: the trailing path segment of a reference. -/
def refToName (ref : String) : String :=
  ((splitChar '/' ref).getLast?).getD ref

/-- Source `resolveRef`: follow a fragment-style pointer (`#/...`)
segment by segment through the document; any miss, non-object
intermediate, or non-object target yields undefined. -/
def resolveRef (doc : Json) (ref : String) : Option Json :=
  if ("#/".data).isPrefixOf ref.data then
    let parts := splitChar '/' (String.mk (ref.data.drop 2))
    let final := parts.foldl
      (fun cur p =>
        match cur with
        | some c => if c.isObjLike then c.get? p else none
        | none => none)
      (some doc)
    match final with
    | some c => if c.isObjLike then some c else none
    | none => none
  else
    none

/-- The object spread `{...direct, ...schema}`: keys of `direct` in
order with same-named keys of `schema` overriding, then the remaining
keys of `schema` appended. -/
def objMerge (direct schema : List (String × Json)) : List (String × Json) :=
  (direct.map (fun kv => (kv.1, (schema.lookup kv.1).getD kv.2)))
    ++ schema.filter (fun kv => (direct.lookup kv.1).isNone)

/-- `delete merged.$ref`. -/
def objDelete (k : String) (fields : List (String × Json)) : List (String × Json) :=
  fields.filter (fun kv => kv.1 ≠ k)

/-- Source `resolveSchema`: resolve exactly one reference hop, shallow
merging sibling keywords over the referenced definition and deleting the
pointer; a node without a truthy pointer, or whose pointer does not
resolve, is returned unchanged. -/
def resolveSchema (doc : Json) (schema : Json) : Json :=
  match refStr schema with
  | none => schema
  | some r =>
    match resolveRef doc r with
    | none => schema
    | some direct => Json.obj (objDelete "$ref" (objMerge direct.toFields schema.toFields))

/-- The elements of the `enum` member when it is an array
(`Array.isArray(s.enum)`), else the empty list. -/
def enumList (j : Json) : List Json :=
  match j.get? "enum" with
  | some (.arr xs) => xs
  | _ => []

/-- One flattened field: dotted name path, rendered type, propagated
required flag, optional description (source type `FieldInfo`). -/
structure FieldInfo where
  name : String
  type : String
  required : Bool
  description : Option String
deriving Repr, DecidableEq

/-- Source `schemaToTypeText`, fuel-indexed: resolve one hop, then render
a one-line type description.  `none` means the fuel ran out (the source
recursion did not return within that depth). -/
def schemaToTypeText (doc : Json) : Nat → Option Json → Option String
  | 0, _ => none
  | n+1, schema =>
    match schema with
    | none => some "unknown"
    | some j =>
      if !j.truthy then some "unknown"
      else
        let s := resolveSchema doc j
        match typeStr s with
        | none =>
          if lenTruthy (s.get? "allOf") then
            ((asArr (s.get? "allOf")).mapM (fun x => schemaToTypeText doc n (some x))).map
              (String.intercalate " & ")
          else if lenTruthy (s.get? "oneOf") then
            ((asArr (s.get? "oneOf")).mapM (fun x => schemaToTypeText doc n (some x))).map
              (String.intercalate " | ")
          else if lenTruthy (s.get? "anyOf") then
            ((asArr (s.get? "anyOf")).mapM (fun x => schemaToTypeText doc n (some x))).map
              (String.intercalate " | ")
          else if propsTruthy s then some "object"
          else
            match refStr s with
            | some r => some (refToName r)
            | none => some "unknown"
        | some ty =>
          if ty = "integer" ∧ (formatStr s = some "int64" ∨ formatStr s = some "uint64") then
            some "string"
          else if ty = "array" then
            (schemaToTypeText doc n (s.get? "items")).map (fun t => t ++ "[]")
          else if ty = "object" then
            match s.get? "additionalProperties" with
            | some ap =>
              if ap.isTypeofObject then
                (schemaToTypeText doc n (some ap)).map
                  (fun t => "Record<string, " ++ t ++ ">")
              else some "object"
            | none => some "object"
          else if ty = "string" ∧ (enumList s).isEmpty = false then
            some ("string(enum: " ++ String.intercalate ", " ((enumList s).map jsStr) ++ ")")
          else
            match formatStr s with
            | some f => if f = "" then some ty else some (ty ++ "(" ++ f ++ ")")
            | none => some ty

/-- The display name of a descriptor at a prefix: `prefix || '(root)'`. -/
def displayName (pfx : String) : String :=
  if pfx = "" then "(root)" else pfx

/-- One iteration of the `allOf` loop of the source `walkSchema`,
abstracted over the recursive walk at the inner fuel: resolve the member
one hop, walk it with the same prefix and flag, and append what it
pushed, threading the visited set. -/
def walkStepAllOf (doc : Json)
    (walk : Json → List String → Option (List FieldInfo × List String))
    (acc : Option (List FieldInfo × List String)) (part : Json) :
    Option (List FieldInfo × List String) :=
  match acc with
  | none => none
  | some (out, v) =>
    match walk (resolveSchema doc part) v with
    | none => none
    | some (out2, v2) => some (out ++ out2, v2)

/-- One iteration of the property loop of the source `walkSchema`,
abstracted over the recursive walk and the type renderer at the inner
fuel: compute the child flag as `parentRequired && required-list`, then
either emit directly (leaf or array child) or recurse. -/
def walkStepProp (doc : Json) (pfx : String) (preq : Bool) (schema : Json)
    (walk : Json → String → Bool → List String → Option (List FieldInfo × List String))
    (stt : Option Json → Option String)
    (acc : Option (List FieldInfo × List String)) (kc : String × Json) :
    Option (List FieldInfo × List String) :=
  match acc with
  | none => none
  | some (out, v) =>
    let childPfx := if pfx = "" then kc.1 else pfx ++ "." ++ kc.1
    let req := preq && reqHas schema kc.1
    let rc := resolveSchema doc kc.2
    if refStr rc = none ∧ ¬ propsTruthy rc = true ∧
        ¬ typeStr rc = some "object" ∧ ¬ typeStr rc = some "array" then
      match stt (some rc) with
      | none => none
      | some t =>
        some (out ++ [{ name := childPfx, type := t, required := req,
                        description := descStr rc }], v)
    else if typeStr rc = some "array" then
      match stt (some rc) with
      | none => none
      | some t =>
        some (out ++ [{ name := childPfx, type := t, required := req,
                        description := descStr rc }], v)
    else
      match walk rc childPfx req v with
      | none => none
      | some (out2, v2) => some (out ++ out2, v2)

/-- Source `walkSchema`, fuel-indexed.  The mutable output array and
visited-reference set of the source are threaded as state: the result is
the list of descriptors this call pushed together with the visited set
as it stands after the call (the source mutates one shared `Set`, so the
set coming out of one branch is the set going into its sibling).  `none`
means the fuel ran out. -/
def walkSchema (doc : Json) :
    Nat → Json → String → Bool → List String → Option (List FieldInfo × List String)
  | 0, _, _, _, _ => none
  | n+1, schema, pfx, preq, vis =>
    if !schema.truthy then some ([], vis)
    else
      match refStr schema with
      | some r =>
        if vis.contains r then some ([], vis)
        else walkSchema doc n (resolveSchema doc schema) pfx preq (r :: vis)
      | none =>
        if lenTruthy (schema.get? "allOf") then
          (asArr (schema.get? "allOf")).foldl
            (walkStepAllOf doc (fun sc v => walkSchema doc n sc pfx preq v))
            (some ([], vis))
        else if lenTruthy (schema.get? "oneOf") || lenTruthy (schema.get? "anyOf") then
          let unionParts := asArr ((schema.getNN "oneOf") <|> (schema.getNN "anyOf"))
          match unionParts.mapM (fun u => schemaToTypeText doc n (some u)) with
          | none => none
          | some ts =>
            some ([{ name := displayName pfx, type := String.intercalate " | " ts,
                     required := preq, description := descStr schema }], vis)
        else
          if typeStr schema = some "object" ∨ (typeStr schema = none ∧ propsTruthy schema) then
            match propsEntries schema with
            | [] =>
              match schemaToTypeText doc n (some schema) with
              | none => none
              | some t =>
                some ([{ name := displayName pfx, type := t,
                         required := preq, description := descStr schema }], vis)
            | e :: es =>
              (e :: es).foldl
                (walkStepProp doc pfx preq schema
                  (fun sc q r v => walkSchema doc n sc q r v) (schemaToTypeText doc n))
                (some ([], vis))
          else
            match schemaToTypeText doc n (some schema) with
            | none => none
            | some t =>
              some ([{ name := displayName pfx, type := t,
                       required := preq, description := descStr schema }], vis)

/-- Source `flattenSchemaFields`: resolve the root one hop and walk it as
required with a fresh visited set, returning the pushed descriptors. -/
def flattenSchemaFields (doc : Json) (schema : Json) (fuel : Nat) :
    Option (List FieldInfo) :=
  (walkSchema doc fuel (resolveSchema doc schema) "" true []).map (fun r => r.1)

/-- Code-point lexicographic strict order on character lists: the model
of a negative `localeCompare` (the document keys the source compares are
plain ASCII, where locale order and code-point order agree). -/
def strLtB : List Char → List Char → Bool
  | [], [] => false
  | [], _ :: _ => true
  | _ :: _, [] => false
  | a :: as, b :: bs =>
    if a.toNat < b.toNat then true
    else if b.toNat < a.toNat then false
    else strLtB as bs

/-- Non-positive `localeCompare`: strictly smaller or equal. -/
def strLeB (a b : String) : Bool :=
  strLtB a.data b.data || a == b

/-- `s.toLowerCase()`. -/
def strLower (s : String) : String :=
  String.mk (s.data.map Char.toLower)

/-- One operation record (source type `ApiOperation`): `tags`, `summary`
and the underlying operation definition are carried as the raw values the
source copies out of the document. -/
structure ApiOperation where
  id : String
  path : String
  method : String
  tags : Option Json
  summary : Option Json
  operation : Json

/-- The recognized HTTP method names (source `httpMethods`). -/
def httpMethods : List String :=
  ["get", "post", "put", "delete", "patch", "head", "options", "trace"]

/-- The record pushed for one `(pathKey, method)` entry: the identifier
is `method:path`, extended with `:operationId` when the operation-id is
truthy (the method component is the key as written in the document; the
stored `method` field is lower-cased). -/
def mkOperation (pathKey method : String) (op : Json) : ApiOperation :=
  { id :=
      match op.get? "operationId" with
      | some v =>
        if v.truthy then method ++ ":" ++ pathKey ++ ":" ++ jsStr v
        else method ++ ":" ++ pathKey
      | none => method ++ ":" ++ pathKey,
    path := pathKey,
    method := strLower method,
    tags := op.get? "tags",
    summary := op.get? "summary",
    operation := op }

/-- The records one path entry contributes (the inner loop of the source
`buildOperations`): nothing for a non-object entry, else one record per
recognized method key in declaration order. -/
def opsOfPath (pm : String × Json) : List ApiOperation :=
  if pm.2.isObjLike then
    pm.2.toFields.filterMap (fun mo =>
      if httpMethods.contains (strLower mo.1) then some (mkOperation pm.1 mo.1 mo.2)
      else none)
  else []

/-- The unsorted record list: one record per path entry and recognized
method key, in document declaration order (the loop body of the source
`buildOperations` before the final sort). -/
def buildOperationsPre (doc : Json) : List ApiOperation :=
  let paths := (doc.getNN "paths").getD (Json.obj [])
  paths.toFields.flatMap opsOfPath

/-- The sort comparator of the source `buildOperations` as a
keep-in-order test: `a` may stay before `b` exactly when the comparator
returns at most zero (by path, then by lower-cased method). -/
def opLE (a b : ApiOperation) : Prop :=
  (if a.path = b.path then strLeB a.method b.method
   else strLtB a.path.data b.path.data) = true

instance : DecidableRel opLE := fun a b => by
  unfold opLE; infer_instance

/-- Source `buildOperations`: collect one record per (path, recognized
method) pair and sort stably by path then method (JavaScript
`Array.prototype.sort` is stable; insertion sort realizes the same
ordering). -/
def buildOperations (doc : Json) : List ApiOperation :=
  List.insertionSort opLE (buildOperationsPre doc)

/-- Source `firstResponse`: the value of the first declared key. -/
def firstResponse (responses : Json) : Option Json :=
  match responses.toFields with
  | [] => none
  | kv :: _ => some kv.2

/-- A member access guarded by a truthiness test
(`if (x.k) return x.k`). -/
def truthyMember (j : Json) (k : String) : Option Json :=
  match j.get? k with
  | some v => if v.truthy then some v else none
  | none => none

/-- Source `extractResponseSchema`: try the literal content keys
`application/json`, `*/*`, `application/*+json` in order (each skipped
when absent or null, by `??`); a truthy `schema` member of the chosen
entry wins, else a truthy top-level `schema` member of the response. -/
def extractResponseSchema (resp : Json) : Option Json :=
  let content := (resp.getNN "content").getD (Json.obj [])
  let json := content.getNN "application/json" <|> content.getNN "*/*"
    <|> content.getNN "application/*+json"
  match json.bind (fun jv => jv.get? "schema") with
  | some sv => if sv.truthy then some sv else truthyMember resp "schema"
  | none => truthyMember resp "schema"

/-- The response selection of source `buildResponseLines` line 166:
the `200` entry, else `201`, else `default` (each skipped when absent or
null), else the first declared response. -/
def pickResponse (responses : Json) : Option Json :=
  responses.getNN "200" <|> responses.getNN "201" <|> responses.getNN "default"
    <|> firstResponse responses

/-- One rendered field line of the response section:
`- name: type (必填)? description?`. -/
def fieldLine (f : FieldInfo) : String :=
  "- " ++ f.name ++ ": " ++ f.type ++ (if f.required then " (必填)" else "") ++
    (match f.description with
     | some d => if d = "" then "" else " " ++ d
     | none => "")

/-- Source `buildResponseLines`: select a response, extract its schema,
flatten it; an empty flattening renders the schema's own type on a
single line. -/
def buildResponseLines (doc : Json) (op : Json) (fuel : Nat) :
    Option (List String) :=
  let responses := (op.getNN "responses").getD (Json.obj [])
  match pickResponse responses with
  | none => some []
  | some preferred =>
    if !preferred.truthy then some []
    else
      match extractResponseSchema preferred with
      | none => some []
      | some schema =>
        match flattenSchemaFields doc schema fuel with
        | none => none
        | some [] => (schemaToTypeText doc fuel (some schema)).map (fun t => ["- " ++ t])
        | some fields => some (fields.map fieldLine)

/-! ## Concrete documents used by the claims -/

/-- A schema whose property `self` refers back to its own definition
(registered as `#/components/schemas/A` in `docC1`). -/
def schemaC1 : Json :=
  .obj [("type", .str "object"),
        ("properties", .obj [("self", .obj [("$ref", .str "#/components/schemas/A")])])]

/-- A document registering `schemaC1` under `#/components/schemas/A`. -/
def docC1 : Json :=
  .obj [("components", .obj [("schemas", .obj [("A", schemaC1)])])]

/-- No fuel suffices for the walk of `schemaC1`: each property child is
pre-resolved (which strips `$ref`) before the recursive call, so the
visited-reference guard never fires and the recursion reproduces the same
node one level deeper forever. -/
theorem walkSchemaC1_none :
    ∀ n pfx req vis, walkSchema docC1 n schemaC1 pfx req vis = none := by
  intro n
  induction n with
  | zero => intro pfx req vis; rfl
  | succ n ih =>
    intro pfx req vis
    show (match walkSchema docC1 n schemaC1
            (if pfx = "" then "self" else pfx ++ "." ++ "self")
            (req && reqHas schemaC1 "self") vis with
          | none => none
          | some (out2, v2) => some (([] : List FieldInfo) ++ out2, v2)) = none
    rw [ih]

/-- C1: the claim states that flattening terminates for every document
and schema, in particular for a schema `A` whose property `self` refers
back to `A`.  The code diverges on exactly that input: no fuel suffices
for `flattenSchemaFields docC1 schemaC1`, because `walkSchema`
pre-resolves each property child (stripping its `$ref`) before recursing,
so the visited-reference cycle guard at the top of `walkSchema` never
sees the reference and the recursion never returns. -/
theorem C1_flatten_selfref_diverges :
    ∀ fuel, flattenSchemaFields docC1 schemaC1 fuel = none := by
  intro fuel
  show (walkSchema docC1 fuel schemaC1 "" true []).map (fun r => r.1) = none
  rw [walkSchemaC1_none]
  rfl

/-- A document whose definition `A` is an array whose items refer back
to `A`. -/
def docC3 : Json :=
  .obj [("definitions", .obj [("A",
    .obj [("type", .str "array"), ("items", .obj [("$ref", .str "#/definitions/A")])])])]

/-- A node referencing the cyclic array definition of `docC3`. -/
def nodeC3 : Json := .obj [("$ref", .str "#/definitions/A")]

/-- C3: the claim states that `schemaToTypeText` is total, terminating
even when references or array items form cycles through the document.
The renderer has no cycle guard at all: on the cyclic array definition
of `docC3` it recurses through `items` forever (no fuel suffices), while
absent input does render as `unknown`. -/
theorem C3_schemaToTypeText_cycle_diverges :
    (∀ fuel, schemaToTypeText docC3 fuel (some nodeC3) = none) ∧
    (∀ doc fuel, schemaToTypeText doc (fuel + 1) none = some "unknown") := by
  constructor
  · intro fuel
    induction fuel with
    | zero => rfl
    | succ n ih =>
      show (schemaToTypeText docC3 n ((Json.obj
          [("type", Json.str "array"),
           ("items", Json.obj [("$ref", Json.str "#/definitions/A")])]).get? "items")).map
          (fun t => t ++ "[]") = none
      have h2 : (Json.obj
          [("type", Json.str "array"),
           ("items", Json.obj [("$ref", Json.str "#/definitions/A")])]).get? "items" =
          some nodeC3 := rfl
      rw [h2, ih]
      rfl
  · intro doc fuel
    rfl

/-! ## Lookup facts about the one-hop resolver -/

theorem resolveSchema_no_ref (doc s : Json) (h : refStr s = none) :
    resolveSchema doc s = s := by
  simp only [resolveSchema, h]

theorem resolveSchema_unresolvable (doc s : Json) (r : String)
    (h : refStr s = some r) (h2 : resolveRef doc r = none) :
    resolveSchema doc s = s := by
  simp only [resolveSchema, h, h2]

theorem resolveSchema_resolved (doc s d : Json) (r : String)
    (h : refStr s = some r) (h2 : resolveRef doc r = some d) :
    resolveSchema doc s = Json.obj (objDelete "$ref" (objMerge d.toFields s.toFields)) := by
  simp only [resolveSchema, h, h2]

theorem lookup_append_or (l1 l2 : List (String × Json)) (k : String) :
    (l1 ++ l2).lookup k = (l1.lookup k).or (l2.lookup k) := by
  induction l1 with
  | nil => simp
  | cons kv rest ih =>
    obtain ⟨k1, v1⟩ := kv
    by_cases h : k = k1
    · subst h
      simp [List.lookup_cons]
    · simp [List.lookup_cons, beq_eq_false_iff_ne.mpr h, ih]

theorem lookup_map_override (d s : List (String × Json)) (k : String) :
    ((d.map (fun kv => (kv.1, (s.lookup kv.1).getD kv.2))).lookup k)
      = (d.lookup k).map (fun v => (s.lookup k).getD v) := by
  induction d with
  | nil => simp
  | cons kv rest ih =>
    obtain ⟨k1, v1⟩ := kv
    by_cases h : k = k1
    · subst h
      simp [List.lookup_cons]
    · simp [List.lookup_cons, beq_eq_false_iff_ne.mpr h, ih]

theorem lookup_filter_key (p : String → Bool) (l : List (String × Json)) (k : String) :
    ((l.filter (fun kv => p kv.1)).lookup k) = if p k then l.lookup k else none := by
  induction l with
  | nil => simp
  | cons kv rest ih =>
    obtain ⟨k1, v1⟩ := kv
    rw [List.filter_cons]
    by_cases h : k = k1
    · subst h
      cases hp : p k
      · rw [if_neg (by simp [hp]), ih, hp]
        simp
      · rw [if_pos (by simp [hp]), List.lookup_cons]
        simp [hp]
    · have hb : (k == k1) = false := beq_eq_false_iff_ne.mpr h
      cases hp : p k1
      · rw [if_neg (by simp [hp]), ih]
        simp only [List.lookup_cons, hb]
      · rw [if_pos (by simp [hp])]
        simp only [List.lookup_cons, hb, ih]

theorem lookup_objMerge (d s : List (String × Json)) (k : String) :
    (objMerge d s).lookup k = (s.lookup k).or (d.lookup k) := by
  unfold objMerge
  rw [lookup_append_or, lookup_map_override,
    lookup_filter_key (fun x => (d.lookup x).isNone) s k]
  cases hd : d.lookup k <;> cases hs : s.lookup k <;> simp [hd, hs]

theorem lookup_objDelete_self (k : String) (l : List (String × Json)) :
    (objDelete k l).lookup k = none := by
  unfold objDelete
  rw [lookup_filter_key (fun x => decide (x ≠ k)) l k]
  simp

theorem lookup_objDelete_ne (k0 k : String) (h : k ≠ k0) (l : List (String × Json)) :
    (objDelete k0 l).lookup k = l.lookup k := by
  unfold objDelete
  rw [lookup_filter_key (fun x => decide (x ≠ k0)) l k]
  simp [h]

/-- A node with a truthy `$ref` member is an object. -/
theorem obj_of_refStr (s : Json) (r : String) (h : refStr s = some r) :
    ∃ fields, s = Json.obj fields := by
  cases s with
  | obj fields => exact ⟨fields, rfl⟩
  | null => simp [refStr, Json.getStr?, Json.get?] at h
  | bool b => simp [refStr, Json.getStr?, Json.get?] at h
  | num n => simp [refStr, Json.getStr?, Json.get?] at h
  | str s => simp [refStr, Json.getStr?, Json.get?] at h
  | arr xs =>
    have hh : Json.get? (Json.arr xs) "$ref" = none := rfl
    simp [refStr, Json.getStr?, hh] at h

/-- A document with a chained reference `A -> B` and a plain string
definition `B`. -/
def docChain : Json :=
  .obj [("definitions", .obj
    [("A", .obj [("$ref", .str "#/definitions/B")]),
     ("B", .obj [("type", .str "string")])])]

/-- A node referencing the chained definition `A` of `docChain`. -/
def nodeChainA : Json := .obj [("$ref", .str "#/definitions/A")]

/-- C5: the resolver resolves exactly one hop and shallow-merges.  A node
whose pointer is not of the fragment form `#/...`, or whose pointer does
not resolve, is returned unchanged; when the pointer resolves to a
definition, every keyword other than `$ref` is looked up first among the
sibling keywords of the referencing node and only then in the referenced
definition (sibling keywords override), and the `$ref` keyword itself is
deleted.  The embedding is a pure function, so the document and the input
node are untouched. -/
theorem C5_resolver_one_hop_shallow_merge :
    (∀ (doc s : Json) (r : String), refStr s = some r →
        ("#/".data).isPrefixOf r.data = false → resolveSchema doc s = s) ∧
    (∀ (doc s : Json) (r : String), refStr s = some r →
        resolveRef doc r = none → resolveSchema doc s = s) ∧
    (∀ (doc s d : Json) (r : String), refStr s = some r → resolveRef doc r = some d →
        (∀ k, k ≠ "$ref" →
          ((resolveSchema doc s).toFields).lookup k
            = ((s.toFields.lookup k).or (d.toFields.lookup k))) ∧
        ((resolveSchema doc s).toFields).lookup "$ref" = none) := by
  refine ⟨?_, ?_, ?_⟩
  · intro doc s r h hpre
    have hrr : resolveRef doc r = none := by
      unfold resolveRef
      rw [hpre]
      simp
    exact resolveSchema_unresolvable doc s r h hrr
  · intro doc s r h h2
    exact resolveSchema_unresolvable doc s r h h2
  · intro doc s d r h h2
    rw [resolveSchema_resolved doc s d r h h2]
    constructor
    · intro k hk
      show (objDelete "$ref" (objMerge d.toFields s.toFields)).lookup k = _
      rw [lookup_objDelete_ne "$ref" k hk, lookup_objMerge]
    · show (objDelete "$ref" (objMerge d.toFields s.toFields)).lookup "$ref" = none
      exact lookup_objDelete_self "$ref" _

/-- Witness for C5: on `docChain`, a node referencing `B` with a sibling
`type: integer` resolves with the sibling overriding the definition; a
non-fragment pointer and an unresolvable fragment pointer are returned
unchanged. -/
theorem C5_witness :
    ((resolveSchema docChain
        (.obj [("$ref", .str "#/definitions/B"), ("type", .str "integer")])).toFields).lookup
        "type" = some (.str "integer") ∧
    resolveSchema docChain (.obj [("$ref", .str "http://x/y")])
      = .obj [("$ref", .str "http://x/y")] ∧
    resolveSchema docChain (.obj [("$ref", .str "#/definitions/Nope")])
      = .obj [("$ref", .str "#/definitions/Nope")] := by
  refine ⟨?_, ?_, ?_⟩
  · exact ((C5_resolver_one_hop_shallow_merge.2.2 docChain
      (.obj [("$ref", .str "#/definitions/B"), ("type", .str "integer")])
      (.obj [("type", .str "string")]) "#/definitions/B" rfl rfl).1 "type"
      (by decide)).trans rfl
  · exact C5_resolver_one_hop_shallow_merge.1 docChain
      (.obj [("$ref", .str "http://x/y")]) "http://x/y" rfl rfl
  · exact C5_resolver_one_hop_shallow_merge.2.1 docChain
      (.obj [("$ref", .str "#/definitions/Nope")]) "#/definitions/Nope" rfl rfl

/-- C10: whenever the resolver succeeds, the returned node carries no
`$ref` member at all — the merge lets the referencing node's own `$ref`
override any `$ref` of the referenced definition and then deletes it, so
re-invoking the resolver on the result is the identity (it can never
follow a second hop); concretely, resolving the chained reference
`A -> B` of `docChain` loses the inner pointer and yields the empty
object. -/
theorem C10_resolved_carries_no_ref :
    (∀ (doc s d : Json) (r : String), refStr s = some r → resolveRef doc r = some d →
        (resolveSchema doc s).get? "$ref" = none ∧
        refStr (resolveSchema doc s) = none) ∧
    (∀ doc s, resolveSchema doc (resolveSchema doc s) = resolveSchema doc s) ∧
    resolveSchema docChain nodeChainA = Json.obj [] := by
  have key : ∀ (doc s d : Json) (r : String), refStr s = some r →
      resolveRef doc r = some d →
      (resolveSchema doc s).get? "$ref" = none ∧
      refStr (resolveSchema doc s) = none := by
    intro doc s d r h h2
    rw [resolveSchema_resolved doc s d r h h2]
    have hget : (Json.obj (objDelete "$ref" (objMerge d.toFields s.toFields))).get? "$ref"
        = none := by
      show (objDelete "$ref" (objMerge d.toFields s.toFields)).lookup "$ref" = none
      exact lookup_objDelete_self "$ref" _
    refine ⟨hget, ?_⟩
    unfold refStr Json.getStr?
    rw [hget]
  refine ⟨key, ?_, rfl⟩
  intro doc s
  cases h : refStr s with
  | none => rw [resolveSchema_no_ref doc s h, resolveSchema_no_ref doc s h]
  | some r =>
    cases h2 : resolveRef doc r with
    | none =>
      rw [resolveSchema_unresolvable doc s r h h2, resolveSchema_unresolvable doc s r h h2]
    | some d =>
      exact resolveSchema_no_ref doc _ ((key doc s d r h h2).2)

/-- Witness for C10: resolving the chained reference of `docChain` yields
a node with no `$ref` member. -/
theorem C10_witness :
    (resolveSchema docChain nodeChainA).get? "$ref" = none ∧
    resolveSchema docChain (resolveSchema docChain nodeChainA)
      = resolveSchema docChain nodeChainA :=
  ⟨(C10_resolved_carries_no_ref.1 docChain nodeChainA
      (.obj [("$ref", .str "#/definitions/B")]) "#/definitions/A" rfl rfl).1,
   C10_resolved_carries_no_ref.2.1 docChain nodeChainA⟩

/-! ## Union compositions (claim C9) -/

/-- A node carrying both a non-empty `allOf` and a non-empty `oneOf`:
the walk descends into the `allOf` members and ignores the union. -/
def nodeC9a : Json :=
  .obj [("allOf", .arr [.obj [("type", .str "string")]]),
        ("oneOf", .arr [.obj [("type", .str "boolean")], .obj [("type", .str "integer")]])]

/-- A node with an empty `oneOf` next to a non-empty `anyOf`: the union
branch fires, but `oneOf ?? anyOf` picks the empty `oneOf`. -/
def nodeC9b : Json :=
  .obj [("oneOf", .arr []),
        ("anyOf", .arr [.obj [("type", .str "string")], .obj [("type", .str "integer")]])]

/-- Counterexample to C9 as stated ("for every node carrying a non-empty
oneOf or anyOf composition... one descriptor whose type is the members'
rendered types joined by a pipe"): a node that also carries an `allOf` is
expanded through the `allOf` members instead, and a node with an empty
`oneOf` field next to a non-empty `anyOf` emits the empty union type,
not the join of the `anyOf` members. -/
theorem C9_counterexample :
    flattenSchemaFields (Json.obj []) nodeC9a 10
      = some [⟨"(root)", "string", true, none⟩] ∧
    flattenSchemaFields (Json.obj []) nodeC9a 10
      ≠ some [⟨"(root)", "boolean | integer", true, none⟩] ∧
    flattenSchemaFields (Json.obj []) nodeC9b 10
      = some [⟨"(root)", "", true, none⟩] ∧
    flattenSchemaFields (Json.obj []) nodeC9b 10
      ≠ some [⟨"(root)", "string | integer", true, none⟩] := by
  refine ⟨rfl, ?_, rfl, ?_⟩ <;> decide

/-- C9 (amended): for a node without a truthy reference and without a
non-empty `allOf`, whose `oneOf` field is a non-empty array — or which
has no `oneOf` field and a non-empty `anyOf` — the walk does not descend
into the members: it emits exactly one descriptor at the current prefix
whose type is the members' rendered types joined by ` | `, carrying the
current required flag and the node's own description; concretely,
`{oneOf: [{type: string}, {type: integer}]}` flattens to the single
descriptor `(root): string | integer`. -/
theorem C9_union_single_descriptor :
    (∀ (doc : Json) (n : Nat) (s : Json) (pfx : String) (preq : Bool) (vis : List String),
      s.truthy = true → refStr s = none → lenTruthy (s.get? "allOf") = false →
      (lenTruthy (s.get? "oneOf") || lenTruthy (s.get? "anyOf")) = true →
      walkSchema doc (n + 1) s pfx preq vis =
        match (asArr ((s.getNN "oneOf") <|> (s.getNN "anyOf"))).mapM
            (fun u => schemaToTypeText doc n (some u)) with
        | none => none
        | some ts =>
          some ([{ name := displayName pfx, type := String.intercalate " | " ts,
                   required := preq, description := descStr s }], vis)) ∧
    flattenSchemaFields (Json.obj [])
        (.obj [("oneOf", .arr [.obj [("type", .str "string")], .obj [("type", .str "integer")]])])
        10
      = some [⟨"(root)", "string | integer", true, none⟩] := by
  constructor
  · intro doc n s pfx preq vis ht h2 h3 h4
    simp only [walkSchema, ht, Bool.not_true, Bool.false_eq_true, if_false, h2, h3, h4,
      if_true]
  · rfl

/-- Witness for C9 (amended): the union branch applied at the concrete
two-member `oneOf` node. -/
theorem C9_witness :
    walkSchema (Json.obj []) 10
        (.obj [("oneOf", .arr [.obj [("type", .str "string")], .obj [("type", .str "integer")]])])
        "" true []
      = some ([⟨"(root)", "string | integer", true, none⟩], []) :=
  (C9_union_single_descriptor.1 (Json.obj []) 9
    (.obj [("oneOf", .arr [.obj [("type", .str "string")], .obj [("type", .str "integer")]])])
    "" true [] rfl rfl rfl rfl).trans rfl

/-! ## Response selection and schema extraction (claim C6) -/

/-- The response body schema of the end-to-end document of the spec's
testable-properties section. -/
def bodySchema8 : Json :=
  .obj [("type", .str "object"), ("required", .arr [.str "id"]),
        ("properties", .obj [("id", .obj [("type", .str "string")]),
                             ("age", .obj [("type", .str "integer")])])]

/-- The single `get` operation of the end-to-end document. -/
def opGet8 : Json :=
  .obj [("operationId", .str "getUser"),
        ("parameters", .arr [.obj [("name", .str "id"), ("in", .str "path"),
          ("required", .bool true), ("schema", .obj [("type", .str "string")])]]),
        ("responses", .obj [("200", .obj [("content", .obj
          [("application/json", .obj [("schema", bodySchema8)])])])])]

/-- The end-to-end document of the spec's testable-properties section. -/
def doc8 : Json :=
  .obj [("paths", .obj [("/users/{id}", .obj [("get", opGet8)])])]

/-- A response whose only content entry is keyed `application/hal+json`. -/
def respHal : Json :=
  .obj [("content", .obj [("application/hal+json", .obj
    [("schema", .obj [("type", .str "string")])])])]

/-- Counterexample to C6 as stated: the claim says any
`application/*+json`-shaped content key — e.g. `application/hal+json` —
qualifies as the third content-type preference.  The source looks up the
literal key `application/*+json`, so a `application/hal+json` entry
carrying a schema is not matched and extraction yields nothing (and the
response section renders no lines). -/
theorem C6_counterexample :
    ((((respHal.getNN "content").getD (Json.obj [])).get? "application/hal+json").bind
        (fun j => j.get? "schema")) = some (.obj [("type", .str "string")]) ∧
    extractResponseSchema respHal = none ∧
    buildResponseLines (Json.obj [])
        (.obj [("responses", .obj [("200", respHal)])]) 10 = some [] :=
  ⟨rfl, rfl, rfl⟩

/-- C6 (amended): the documented response is selected by trying, in
order, the `200` entry, the `201` entry, the `default` entry (each
skipped when absent or null), then the first declared response; its
schema is extracted by trying the literal content keys
`application/json`, then `*/*`, then `application/*+json` (a key such as
`application/hal+json` does not qualify), falling back to a truthy bare
top-level `schema` member of the response when no content entry
produces a truthy schema; on the end-to-end document the response
section renders the flattened `200` JSON schema. -/
theorem C6_response_selection_and_extraction :
    (∀ (rs : Json) (v : Json), rs.getNN "200" = some v → pickResponse rs = some v) ∧
    (∀ (rs : Json) (v : Json), rs.getNN "200" = none → rs.getNN "201" = some v →
      pickResponse rs = some v) ∧
    (∀ (rs : Json) (v : Json), rs.getNN "200" = none → rs.getNN "201" = none →
      rs.getNN "default" = some v → pickResponse rs = some v) ∧
    (∀ rs : Json, rs.getNN "200" = none → rs.getNN "201" = none →
      rs.getNN "default" = none → pickResponse rs = firstResponse rs) ∧
    (∀ (resp v s : Json),
      ((resp.getNN "content").getD (Json.obj [])).getNN "application/json" = some v →
      v.get? "schema" = some s → s.truthy = true → extractResponseSchema resp = some s) ∧
    (∀ (resp v s : Json),
      ((resp.getNN "content").getD (Json.obj [])).getNN "application/json" = none →
      ((resp.getNN "content").getD (Json.obj [])).getNN "*/*" = some v →
      v.get? "schema" = some s → s.truthy = true → extractResponseSchema resp = some s) ∧
    (∀ (resp v s : Json),
      ((resp.getNN "content").getD (Json.obj [])).getNN "application/json" = none →
      ((resp.getNN "content").getD (Json.obj [])).getNN "*/*" = none →
      ((resp.getNN "content").getD (Json.obj [])).getNN "application/*+json" = some v →
      v.get? "schema" = some s → s.truthy = true → extractResponseSchema resp = some s) ∧
    (∀ (resp s : Json),
      ((resp.getNN "content").getD (Json.obj [])).getNN "application/json" = none →
      ((resp.getNN "content").getD (Json.obj [])).getNN "*/*" = none →
      ((resp.getNN "content").getD (Json.obj [])).getNN "application/*+json" = none →
      resp.get? "schema" = some s → s.truthy = true → extractResponseSchema resp = some s) ∧
    buildResponseLines doc8 opGet8 10 = some ["- id: string (必填)", "- age: integer"] := by
  refine ⟨?_, ?_, ?_, ?_, ?_, ?_, ?_, ?_, rfl⟩
  · intro rs v h
    simp only [pickResponse, h, Option.some_orElse]
  · intro rs v h1 h2
    simp only [pickResponse, h1, h2, Option.none_orElse, Option.some_orElse]
  · intro rs v h1 h2 h3
    simp only [pickResponse, h1, h2, h3, Option.none_orElse, Option.some_orElse]
  · intro rs h1 h2 h3
    simp only [pickResponse, h1, h2, h3, Option.none_orElse]
  · intro resp v s h1 h2 h3
    simp only [extractResponseSchema, h1, Option.some_orElse, Option.some_bind, h2, h3,
      if_true]
  · intro resp v s h1 h2 h3 h4
    simp only [extractResponseSchema, h1, h2, Option.none_orElse, Option.some_orElse,
      Option.some_bind, h3, h4, if_true]
  · intro resp v s h1 h2 h3 h4 h5
    simp only [extractResponseSchema, h1, h2, h3, Option.none_orElse, Option.some_orElse,
      Option.some_bind, h4, h5, if_true]
  · intro resp s h1 h2 h3 h4 h5
    simp only [extractResponseSchema, h1, h2, h3, Option.none_orElse, Option.none_bind,
      truthyMember, h4, h5, if_true]

/-- Witness for C6 (amended): the selection and extraction facts applied
at the `200` response of the end-to-end document. -/
theorem C6_witness :
    pickResponse (.obj [("200", respHal)]) = some respHal ∧
    extractResponseSchema
        (.obj [("content", .obj [("application/json", .obj
          [("schema", .obj [("type", .str "integer")])])])])
      = some (.obj [("type", .str "integer")]) ∧
    extractResponseSchema (.obj [("schema", .obj [("type", .str "integer")])])
      = some (.obj [("type", .str "integer")]) :=
  ⟨C6_response_selection_and_extraction.1 (.obj [("200", respHal)]) respHal rfl,
   C6_response_selection_and_extraction.2.2.2.2.1
     (.obj [("content", .obj [("application/json", .obj
       [("schema", .obj [("type", .str "integer")])])])])
     (.obj [("schema", .obj [("type", .str "integer")])])
     (.obj [("type", .str "integer")]) rfl rfl rfl,
   C6_response_selection_and_extraction.2.2.2.2.2.2.2.1
     (.obj [("schema", .obj [("type", .str "integer")])])
     (.obj [("type", .str "integer")]) rfl rfl rfl rfl rfl⟩

/-! ## Order facts about the sort comparator (claims C7, C8) -/

theorem charToNat_inj {a b : Char} (h : a.toNat = b.toNat) : a = b :=
  Char.eq_of_val_eq (UInt32.ext h)

theorem strLtB_irrefl : ∀ x, strLtB x x = false := by
  intro x
  induction x with
  | nil => rfl
  | cons a as ih => simp [strLtB, ih]

theorem strLtB_eq_of_both_false :
    ∀ x y, strLtB x y = false → strLtB y x = false → x = y := by
  intro x
  induction x with
  | nil =>
    intro y h1 _
    cases y with
    | nil => rfl
    | cons b bs => simp [strLtB] at h1
  | cons a as ih =>
    intro y h1 h2
    cases y with
    | nil => simp [strLtB] at h2
    | cons b bs =>
      unfold strLtB at h1 h2
      by_cases hab : a.toNat < b.toNat
      · simp [hab] at h1
      · by_cases hba : b.toNat < a.toNat
        · simp [hab, hba] at h2
        · simp only [hab, hba, if_false] at h1 h2
          have he : a = b := charToNat_inj (by omega)
          rw [he, ih bs h1 h2]

theorem strLtB_trans :
    ∀ x y z, strLtB x y = true → strLtB y z = true → strLtB x z = true := by
  intro x
  induction x with
  | nil =>
    intro y z h1 h2
    cases y with
    | nil => simp [strLtB] at h1
    | cons b bs =>
      cases z with
      | nil => simp [strLtB] at h2
      | cons c cs => rfl
  | cons a as ih =>
    intro y z h1 h2
    cases y with
    | nil => simp [strLtB] at h1
    | cons b bs =>
      cases z with
      | nil => simp [strLtB] at h2
      | cons c cs =>
        unfold strLtB at h1 h2 ⊢
        by_cases hab : a.toNat < b.toNat
        · by_cases hbc : b.toNat < c.toNat
          · simp [show a.toNat < c.toNat by omega]
          · by_cases hcb : c.toNat < b.toNat
            · simp [hbc, hcb] at h2
            · simp [show a.toNat < c.toNat by omega]
        · by_cases hba : b.toNat < a.toNat
          · simp [hab, hba] at h1
          · simp only [hab, hba, if_false] at h1
            by_cases hbc : b.toNat < c.toNat
            · simp [show a.toNat < c.toNat by omega]
            · by_cases hcb : c.toNat < b.toNat
              · simp [hbc, hcb] at h2
              · simp only [hbc, hcb, if_false] at h2
                simp only [show ¬ a.toNat < c.toNat by omega,
                  show ¬ c.toNat < a.toNat by omega, if_false]
                exact ih bs cs h1 h2

theorem strLtB_asymm (x y : List Char) (h : strLtB x y = true) : strLtB y x = false := by
  cases hyx : strLtB y x
  · rfl
  · have := strLtB_trans x y x h hyx
    rw [strLtB_irrefl] at this
    exact absurd this (by simp)

instance : IsTotal ApiOperation opLE := by
  constructor
  intro a b
  unfold opLE
  by_cases hp : a.path = b.path
  · rw [if_pos hp, if_pos hp.symm]
    unfold strLeB
    cases hlt : strLtB a.method.data b.method.data
    · cases hlt2 : strLtB b.method.data a.method.data
      · have : a.method.data = b.method.data := strLtB_eq_of_both_false _ _ hlt hlt2
        have hm : a.method = b.method := String.ext this
        left
        simp [hm]
      · right
        simp
    · left
      simp
  · rw [if_neg hp, if_neg (fun hh => hp hh.symm)]
    cases hlt : strLtB a.path.data b.path.data
    · cases hlt2 : strLtB b.path.data a.path.data
      · exact absurd (String.ext (strLtB_eq_of_both_false _ _ hlt hlt2)) hp
      · right
        rfl
    · left
      rfl

instance : IsTrans ApiOperation opLE := by
  constructor
  intro a b c hab hbc
  unfold opLE at hab hbc ⊢
  by_cases hpab : a.path = b.path
  · by_cases hpbc : b.path = c.path
    · rw [if_pos hpab] at hab
      rw [if_pos hpbc] at hbc
      rw [if_pos (hpab.trans hpbc)]
      unfold strLeB at hab hbc ⊢
      simp only [Bool.or_eq_true, beq_iff_eq] at hab hbc ⊢
      rcases hab with hab | hab
      · rcases hbc with hbc | hbc
        · exact Or.inl (strLtB_trans _ _ _ hab hbc)
        · rw [hbc] at hab
          exact Or.inl hab
      · rw [hab]
        exact hbc
    · rw [if_pos hpab] at hab
      rw [if_neg hpbc] at hbc
      rw [if_neg (hpab ▸ hpbc), hpab]
      exact hbc
  · by_cases hpbc : b.path = c.path
    · rw [if_neg hpab] at hab
      rw [if_neg (fun hh => hpab (hh.trans hpbc.symm)), ← hpbc]
      exact hab
    · rw [if_neg hpab] at hab
      rw [if_neg hpbc] at hbc
      by_cases hpac : a.path = c.path
      · exfalso
        rw [hpac] at hab
        have hbb := strLtB_trans _ _ _ hbc hab
        rw [strLtB_irrefl] at hbb
        exact absurd hbb (by simp)
      · rw [if_neg hpac]
        exact strLtB_trans _ _ _ hab hbc

/-- C7: one record per (path, recognized method) pair (the sorted output
is a permutation of the per-entry comprehension), each record's
identifier is `method:path`, extended with `:operationId` when a truthy
operation-id is present (the method component being the key as written);
the output is sorted by path then by method; and on the end-to-end
document the single record's id is `get:/users/{id}:getUser`. -/
theorem C7_operations_id_and_order :
    buildOperations doc8
      = [{ id := "get:/users/{id}:getUser", path := "/users/{id}", method := "get",
           tags := none, summary := none, operation := opGet8 }] ∧
    (∀ doc : Json, List.Sorted opLE (buildOperations doc)) ∧
    (∀ doc : Json, (buildOperations doc).Perm (buildOperationsPre doc)) ∧
    (∀ (doc : Json) (a : ApiOperation), a ∈ buildOperations doc →
      ∃ mkey : String, strLower mkey = a.method ∧
        httpMethods.contains (strLower mkey) = true ∧
        a.id = (match a.operation.get? "operationId" with
                | some v => if v.truthy then mkey ++ ":" ++ a.path ++ ":" ++ jsStr v
                            else mkey ++ ":" ++ a.path
                | none => mkey ++ ":" ++ a.path)) := by
  refine ⟨rfl, ?_, ?_, ?_⟩
  · intro doc
    exact List.sorted_insertionSort opLE (buildOperationsPre doc)
  · intro doc
    exact List.perm_insertionSort opLE (buildOperationsPre doc)
  · intro doc a ha
    have ha2 : a ∈ buildOperationsPre doc := by
      simpa [buildOperations] using ha
    unfold buildOperationsPre at ha2
    rw [List.mem_flatMap] at ha2
    obtain ⟨pm, _, hbody⟩ := ha2
    unfold opsOfPath at hbody
    by_cases hobj : pm.2.isObjLike
    · rw [if_pos hobj, List.mem_filterMap] at hbody
      obtain ⟨mo, _, heq⟩ := hbody
      by_cases hc : httpMethods.contains (strLower mo.1)
      · rw [if_pos hc, Option.some_inj] at heq
        subst heq
        exact ⟨mo.1, rfl, by rw [hc], rfl⟩
      · rw [if_neg hc] at heq
        exact absurd heq (by simp)
    · rw [if_neg hobj] at hbody
      exact absurd hbody (by simp)

/-- The record the end-to-end document produces. -/
def recC7 : ApiOperation := mkOperation "/users/{id}" "get" opGet8

/-- Witness for C7: the id-formula conjunct applied at the end-to-end
document's single record. -/
theorem C7_witness :
    ∃ mkey : String, strLower mkey = recC7.method ∧
      httpMethods.contains (strLower mkey) = true ∧
      recC7.id = (match recC7.operation.get? "operationId" with
                  | some v => if v.truthy then mkey ++ ":" ++ recC7.path ++ ":" ++ jsStr v
                              else mkey ++ ":" ++ recC7.path
                  | none => mkey ++ ":" ++ recC7.path) :=
  C7_operations_id_and_order.2.2.2 doc8 recC7
    (by rw [C7_operations_id_and_order.1]; exact List.mem_singleton.mpr rfl)

/-- The sort key of a record: (path, lower-cased method). -/
def opKey (a : ApiOperation) : String × String := (a.path, a.method)

theorem strLeB_antisymm (x y : String) (h1 : strLeB x y = true) (h2 : strLeB y x = true) :
    x = y := by
  unfold strLeB at h1 h2
  simp only [Bool.or_eq_true, beq_iff_eq] at h1 h2
  rcases h1 with h1 | h1
  · rcases h2 with h2 | h2
    · exact absurd h2 (by simp [strLtB_asymm _ _ h1])
    · exact h2.symm
  · exact h1

theorem opLE_antisymm_key (a b : ApiOperation) (h1 : opLE a b) (h2 : opLE b a) :
    opKey a = opKey b := by
  unfold opLE at h1 h2
  by_cases hp : a.path = b.path
  · rw [if_pos hp] at h1
    rw [if_pos hp.symm] at h2
    have hm := strLeB_antisymm _ _ h1 h2
    unfold opKey
    rw [hp, hm]
  · rw [if_neg hp] at h1
    rw [if_neg (fun hh => hp hh.symm)] at h2
    exact absurd h1 (by simp [strLtB_asymm _ _ h2])

/-- Two sorted permutations of each other with pairwise-distinct sort
keys are equal (ties in the comparator cannot arise, so the stable sort
order is determined by the key set alone). -/
theorem sorted_perm_nodup_key_eq :
    ∀ (l1 l2 : List ApiOperation), l1.Perm l2 → List.Sorted opLE l1 →
      List.Sorted opLE l2 → ((l1.map opKey).Nodup) → l1 = l2 := by
  intro l1
  induction l1 with
  | nil =>
    intro l2 hp _ _ _
    cases l2 with
    | nil => rfl
    | cons b t2 => simpa using hp.length_eq
  | cons a t1 ih =>
    intro l2 hp hs1 hs2 hnd
    cases l2 with
    | nil => simpa using hp.length_eq
    | cons b t2 =>
      by_cases hab : a = b
      · subst hab
        rw [ih t2 hp.cons_inv hs1.of_cons hs2.of_cons
          (by simpa [List.nodup_cons] using (List.nodup_cons.mp hnd).2)]
      · exfalso
        have hbmem : b ∈ a :: t1 := hp.mem_iff.mpr (List.mem_cons_self b t2)
        have hamem : a ∈ b :: t2 := hp.mem_iff.mp (List.mem_cons_self a t1)
        have hb1 : b ∈ t1 := by
          cases List.mem_cons.mp hbmem with
          | inl h => exact absurd h.symm hab
          | inr h => exact h
        have ha2 : a ∈ t2 := by
          cases List.mem_cons.mp hamem with
          | inl h => exact absurd h hab
          | inr h => exact h
        have h1 : opLE a b := List.rel_of_sorted_cons hs1 b hb1
        have h2 : opLE b a := List.rel_of_sorted_cons hs2 a ha2
        have hk : opKey a = opKey b := opLE_antisymm_key a b h1 h2
        have : opKey a ∉ t1.map opKey := (List.nodup_cons.mp hnd).1
        exact this (hk ▸ List.mem_map_of_mem opKey hb1)

/-- Two documents "differ only in the enumeration order of object keys"
at the methods level when the values are objects with permuted field
lists (or are identical). -/
def methodsPerm (a b : Json) : Prop :=
  (∃ f1 f2, a = Json.obj f1 ∧ b = Json.obj f2 ∧ f1.Perm f2) ∨ a = b

theorem filterMap_if {α β : Type} (p : α → Bool) (h : α → β) :
    ∀ l : List α, (l.filterMap (fun x => if p x then some (h x) else none))
      = (l.filter p).map h := by
  intro l
  induction l with
  | nil => rfl
  | cons x xs ih =>
    cases hp : p x
    · simp [List.filterMap_cons, List.filter_cons, hp, ih]
    · simp [List.filterMap_cons, List.filter_cons, hp, ih]

theorem opsOfPath_map_key (pm : String × Json) :
    (opsOfPath pm).map opKey
      = if pm.2.isObjLike then
          ((pm.2.toFields.filter (fun mo => httpMethods.contains (strLower mo.1))).map
            (fun mo => (pm.1, strLower mo.1)))
        else [] := by
  unfold opsOfPath
  by_cases h : pm.2.isObjLike
  · rw [if_pos h, if_pos h, filterMap_if, List.map_map]
    rfl
  · rw [if_neg h, if_neg h]
    rfl

theorem opsOfPath_key_fst (pm : String × Json) :
    ∀ k ∈ (opsOfPath pm).map opKey, k.1 = pm.1 := by
  intro k hk
  rw [opsOfPath_map_key] at hk
  by_cases h : pm.2.isObjLike
  · rw [if_pos h] at hk
    obtain ⟨mo, _, hmo⟩ := List.mem_map.mp hk
    rw [← hmo]
  · rw [if_neg h] at hk
    exact absurd hk (by simp)

theorem opsOfPath_keys_nodup (pm : String × Json)
    (h : ((pm.2.toFields).map (fun mo => strLower mo.1)).Nodup) :
    ((opsOfPath pm).map opKey).Nodup := by
  rw [opsOfPath_map_key]
  by_cases hobj : pm.2.isObjLike
  · rw [if_pos hobj]
    have hsub : ((pm.2.toFields.filter
        (fun mo => httpMethods.contains (strLower mo.1))).map (fun mo => strLower mo.1)).Nodup :=
      ((List.filter_sublist _).map _).nodup h
    have : (pm.2.toFields.filter (fun mo => httpMethods.contains (strLower mo.1))).map
        (fun mo => (pm.1, strLower mo.1))
        = ((pm.2.toFields.filter (fun mo => httpMethods.contains (strLower mo.1))).map
            (fun mo => strLower mo.1)).map (fun m => (pm.1, m)) := by
      rw [List.map_map]
      rfl
    rw [this]
    exact hsub.map (fun x y hh => by simpa using hh)
  · rw [if_neg hobj]
    exact List.nodup_nil

theorem nodup_flatMap_keys :
    ∀ P : List (String × Json), (P.map Prod.fst).Nodup →
      (∀ pm ∈ P, ((pm.2.toFields).map (fun mo => strLower mo.1)).Nodup) →
      ((P.flatMap opsOfPath).map opKey).Nodup := by
  intro P
  induction P with
  | nil =>
    intro _ _
    simp
  | cons pm rest ih =>
    intro hnd hmeth
    rw [List.flatMap_cons, List.map_append]
    rw [List.map_cons] at hnd
    have hnd2 := List.nodup_cons.mp hnd
    refine List.Nodup.append (opsOfPath_keys_nodup pm (hmeth pm (List.mem_cons_self _ _)))
      (ih hnd2.2 (fun q hq => hmeth q (List.mem_cons_of_mem _ hq))) ?_
    intro k hk1 hk2
    have hfst : k.1 = pm.1 := opsOfPath_key_fst pm k hk1
    rw [List.mem_map] at hk2
    obtain ⟨a, ha, hak⟩ := hk2
    rw [List.mem_flatMap] at ha
    obtain ⟨q, hq, haq⟩ := ha
    have : k.1 = q.1 := by
      rw [← hak]
      exact opsOfPath_key_fst q (opKey a) (List.mem_map_of_mem opKey haq)
    have : pm.1 ∈ rest.map Prod.fst := by
      rw [← hfst, this]
      exact List.mem_map_of_mem Prod.fst hq
    exact hnd2.1 this

theorem flatMap_perm_left {α β : Type} (f : α → List β) {l1 l2 : List α}
    (h : l1.Perm l2) : (l1.flatMap f).Perm (l2.flatMap f) := by
  induction h with
  | nil => exact List.Perm.refl _
  | cons x _ ih =>
    rw [List.flatMap_cons, List.flatMap_cons]
    exact ih.append_left (f x)
  | swap x y l =>
    rw [List.flatMap_cons, List.flatMap_cons, List.flatMap_cons, List.flatMap_cons,
      ← List.append_assoc, ← List.append_assoc]
    exact (List.perm_append_comm.append_right _)
  | trans _ _ ih1 ih2 => exact ih1.trans ih2

theorem opsOfPath_perm {x y : String × Json}
    (hk : x.1 = y.1) (hm : methodsPerm x.2 y.2) :
    (opsOfPath x).Perm (opsOfPath y) := by
  rcases hm with ⟨f1, f2, hx, hy, hp⟩ | heq
  · unfold opsOfPath
    rw [hx, hy, hk]
    simp only [Json.isObjLike, if_true]
    exact hp.filterMap _
  · have : x = y := Prod.ext hk heq
    rw [this]

theorem flatMap_perm_forall₂ {mid P2 : List (String × Json)}
    (h : List.Forall₂ (fun x y => x.1 = y.1 ∧ methodsPerm x.2 y.2) mid P2) :
    (mid.flatMap opsOfPath).Perm (P2.flatMap opsOfPath) := by
  induction h with
  | nil => exact List.Perm.refl _
  | cons hxy _ ih =>
    rw [List.flatMap_cons, List.flatMap_cons]
    exact (opsOfPath_perm hxy.1 hxy.2).append ih

theorem buildOperationsPre_paths (doc : Json) (P : List (String × Json))
    (h : doc.getNN "paths" = some (Json.obj P)) :
    buildOperationsPre doc = P.flatMap opsOfPath := by
  unfold buildOperationsPre
  rw [h]
  rfl

/-- A document whose single path declares methods `GET` then `get`. -/
def dGETget : Json :=
  .obj [("paths", .obj [("/p", .obj
    [("GET", .obj [("x", .num 1)]), ("get", .obj [("x", .num 2)])])])]

/-- The same document with the two method keys enumerated in the other
order. -/
def dgetGET : Json :=
  .obj [("paths", .obj [("/p", .obj
    [("get", .obj [("x", .num 2)]), ("GET", .obj [("x", .num 1)])])])]

/-- Counterexample to C8 as stated: `dGETget` and `dgetGET` hold the same
set of (path, method) entries and differ only in the enumeration order of
the method keys, yet `buildOperations` returns differently ordered
sequences — the two records tie under the comparator (both lower-case to
method `get` on the same path), so the stable sort preserves the
enumeration order. -/
theorem C8_counterexample :
    methodsPerm (Json.obj [("GET", .obj [("x", .num 1)]), ("get", .obj [("x", .num 2)])])
      (Json.obj [("get", .obj [("x", .num 2)]), ("GET", .obj [("x", .num 1)])]) ∧
    (buildOperations dGETget).map (fun a => a.id) = ["GET:/p", "get:/p"] ∧
    (buildOperations dgetGET).map (fun a => a.id) = ["get:/p", "GET:/p"] ∧
    buildOperations dGETget ≠ buildOperations dgetGET := by
  refine ⟨Or.inl ⟨_, _, rfl, rfl, List.Perm.swap _ _ _⟩, rfl, rfl, fun h => ?_⟩
  have h2 := congrArg (List.map (fun a => a.id)) h
  rw [show (buildOperations dGETget).map (fun a => a.id) = ["GET:/p", "get:/p"] from rfl,
    show (buildOperations dgetGET).map (fun a => a.id) = ["get:/p", "GET:/p"] from rfl] at h2
  exact absurd h2 (by decide)

/-- C8 (amended): `buildOperations` is deterministic (pure), and for two
documents whose paths tables differ only in the enumeration order of
object keys — top-level path entries permuted, each path's method map
permuted — the outputs are identical, provided no two path keys coincide
and no two method keys of a path coincide after lower-casing (the
counterexample shows the claim fails when `GET` and `get` both appear:
the records tie under the comparator and the stable sort falls back to
enumeration order). -/
theorem C8_enumeration_order_independence :
    (∀ doc : Json, buildOperations doc = buildOperations doc) ∧
    (∀ (d1 d2 : Json) (P1 P2 : List (String × Json)),
      d1.getNN "paths" = some (Json.obj P1) →
      d2.getNN "paths" = some (Json.obj P2) →
      (∃ mid, P1.Perm mid ∧
        List.Forall₂ (fun x y => x.1 = y.1 ∧ methodsPerm x.2 y.2) mid P2) →
      (P1.map Prod.fst).Nodup →
      (∀ pm ∈ P1, ((pm.2.toFields).map (fun mo => strLower mo.1)).Nodup) →
      buildOperations d1 = buildOperations d2) := by
  refine ⟨fun _ => rfl, ?_⟩
  intro d1 d2 P1 P2 h1 h2 hex hnd hmeth
  obtain ⟨mid, hpm, hf2⟩ := hex
  have e1 : buildOperationsPre d1 = P1.flatMap opsOfPath := buildOperationsPre_paths d1 P1 h1
  have e2 : buildOperationsPre d2 = P2.flatMap opsOfPath := buildOperationsPre_paths d2 P2 h2
  have hpre : (buildOperationsPre d1).Perm (buildOperationsPre d2) := by
    rw [e1, e2]
    exact (flatMap_perm_left opsOfPath hpm).trans (flatMap_perm_forall₂ hf2)
  have hkeys : ((buildOperationsPre d1).map opKey).Nodup := by
    rw [e1]
    exact nodup_flatMap_keys P1 hnd hmeth
  have hout : (buildOperations d1).Perm (buildOperations d2) :=
    ((List.perm_insertionSort opLE _).trans hpre).trans
      (List.perm_insertionSort opLE _).symm
  have houtkeys : ((buildOperations d1).map opKey).Nodup :=
    (((List.perm_insertionSort opLE _).map opKey).nodup_iff).mpr hkeys
  exact sorted_perm_nodup_key_eq _ _ hout
    (List.sorted_insertionSort opLE _) (List.sorted_insertionSort opLE _) houtkeys

/-- Witness for C8 (amended): permuting the (distinct-keyed) paths and
methods of the end-to-end document leaves the output unchanged. -/
theorem C8_witness :
    buildOperations
        (.obj [("paths", .obj [("/a", .obj [("get", .obj []), ("post", .obj [])]),
                               ("/b", .obj [("put", .obj [])])])])
      = buildOperations
        (.obj [("paths", .obj [("/b", .obj [("put", .obj [])]),
                               ("/a", .obj [("post", .obj []), ("get", .obj [])])])]) :=
  C8_enumeration_order_independence.2 _ _
    [("/a", .obj [("get", .obj []), ("post", .obj [])]), ("/b", .obj [("put", .obj [])])]
    [("/b", .obj [("put", .obj [])]), ("/a", .obj [("post", .obj []), ("get", .obj [])])]
    rfl rfl
    ⟨[("/b", .obj [("put", .obj [])]), ("/a", .obj [("get", .obj []), ("post", .obj [])])],
      List.Perm.swap _ _ _,
      List.Forall₂.cons ⟨rfl, Or.inr rfl⟩
        (List.Forall₂.cons ⟨rfl, Or.inl ⟨_, _, rfl, rfl, List.Perm.swap _ _ _⟩⟩
          List.Forall₂.nil)⟩
    (by decide)
    (by decide)

/-! ## Required-flag propagation (claim C4) -/

theorem foldl_walkStepAllOf_none (doc : Json)
    (walk : Json → List String → Option (List FieldInfo × List String)) :
    ∀ l : List Json, l.foldl (walkStepAllOf doc walk) none = none := by
  intro l
  induction l with
  | nil => rfl
  | cons part rest ih => exact ih

theorem foldl_walkStepProp_none (doc : Json) (pfx : String) (preq : Bool) (schema : Json)
    (walk : Json → String → Bool → List String → Option (List FieldInfo × List String))
    (stt : Option Json → Option String) :
    ∀ l : List (String × Json),
      l.foldl (walkStepProp doc pfx preq schema walk stt) none = none := by
  intro l
  induction l with
  | nil => rfl
  | cons kc rest ih => exact ih

theorem foldl_walkStepAllOf_invariant (P : FieldInfo → Prop) (doc : Json)
    (walk : Json → List String → Option (List FieldInfo × List String))
    (hw : ∀ (part : Json) (v : List String) (out : List FieldInfo) (W : List String),
      walk (resolveSchema doc part) v = some (out, W) → ∀ fi ∈ out, P fi) :
    ∀ (l : List Json) (o0 : List FieldInfo) (v0 : List String)
      (r : List FieldInfo × List String),
      l.foldl (walkStepAllOf doc walk) (some (o0, v0)) = some r →
      (∀ fi ∈ o0, P fi) → ∀ fi ∈ r.1, P fi := by
  intro l
  induction l with
  | nil =>
    intro o0 v0 r h h0
    cases h
    exact h0
  | cons part rest ih =>
    intro o0 v0 r h h0
    rw [List.foldl_cons] at h
    cases hw1 : walk (resolveSchema doc part) v0 with
    | none =>
      simp only [walkStepAllOf, hw1, foldl_walkStepAllOf_none] at h
      exact absurd h (by simp)
    | some p =>
      simp only [walkStepAllOf, hw1] at h
      refine ih (o0 ++ p.1) p.2 r h ?_
      intro fi hfi
      rcases List.mem_append.mp hfi with hfi | hfi
      · exact h0 fi hfi
      · exact hw part v0 p.1 p.2 (by rw [hw1]) fi hfi

theorem foldl_walkStepProp_false_required (doc : Json) (pfx : String) (schema : Json)
    (walk : Json → String → Bool → List String → Option (List FieldInfo × List String))
    (stt : Option Json → Option String)
    (hw : ∀ (sc : Json) (q : String) (v : List String) (out : List FieldInfo)
        (W : List String),
      walk sc q false v = some (out, W) → ∀ fi ∈ out, fi.required = false) :
    ∀ (l : List (String × Json)) (o0 : List FieldInfo) (v0 : List String)
      (r : List FieldInfo × List String),
      l.foldl (walkStepProp doc pfx false schema walk stt) (some (o0, v0)) = some r →
      (∀ fi ∈ o0, fi.required = false) → ∀ fi ∈ r.1, fi.required = false := by
  intro l
  induction l with
  | nil =>
    intro o0 v0 r h h0
    cases h
    exact h0
  | cons kc rest ih =>
    intro o0 v0 r h h0
    rw [List.foldl_cons] at h
    by_cases hleaf : (refStr (resolveSchema doc kc.2) = none ∧
        ¬ propsTruthy (resolveSchema doc kc.2) = true ∧
        ¬ typeStr (resolveSchema doc kc.2) = some "object" ∧
        ¬ typeStr (resolveSchema doc kc.2) = some "array")
    · cases hst : stt (some (resolveSchema doc kc.2)) with
      | none =>
        simp only [walkStepProp, if_pos hleaf, hst, foldl_walkStepProp_none] at h
        exact absurd h (by simp)
      | some t =>
        simp only [walkStepProp, if_pos hleaf, hst] at h
        refine ih _ v0 r h ?_
        intro fi hfi
        rcases List.mem_append.mp hfi with hfi | hfi
        · exact h0 fi hfi
        · rcases List.mem_singleton.mp hfi with rfl
          simp
    · by_cases harr : typeStr (resolveSchema doc kc.2) = some "array"
      · cases hst : stt (some (resolveSchema doc kc.2)) with
        | none =>
          simp only [walkStepProp, if_neg hleaf, if_pos harr, hst,
            foldl_walkStepProp_none] at h
          exact absurd h (by simp)
        | some t =>
          simp only [walkStepProp, if_neg hleaf, if_pos harr, hst] at h
          refine ih _ v0 r h ?_
          intro fi hfi
          rcases List.mem_append.mp hfi with hfi | hfi
          · exact h0 fi hfi
          · rcases List.mem_singleton.mp hfi with rfl
            simp
      · cases hwk : walk (resolveSchema doc kc.2)
            (if pfx = "" then kc.1 else pfx ++ "." ++ kc.1)
            (false && reqHas schema kc.1) v0 with
        | none =>
          simp only [walkStepProp, if_neg hleaf, if_neg harr, hwk,
            foldl_walkStepProp_none] at h
          exact absurd h (by simp)
        | some p =>
          simp only [walkStepProp, if_neg hleaf, if_neg harr, hwk] at h
          refine ih (o0 ++ p.1) p.2 r h ?_
          intro fi hfi
          rcases List.mem_append.mp hfi with hfi | hfi
          · exact h0 fi hfi
          · exact hw (resolveSchema doc kc.2)
              (if pfx = "" then kc.1 else pfx ++ "." ++ kc.1) v0 p.1 p.2 hwk fi hfi

/-- Walking a node with a false parent flag only emits optional
descriptors: every flag the walk attaches or passes down is
`parentRequired && ...`, so a false root absorbs the whole chain. -/
theorem walk_false_required :
    ∀ (n : Nat) (doc s : Json) (pfx : String) (vis : List String)
      (out : List FieldInfo) (W : List String),
      walkSchema doc n s pfx false vis = some (out, W) →
      ∀ fi ∈ out, fi.required = false := by
  intro n
  induction n with
  | zero =>
    intro doc s pfx vis out W h
    exact absurd h (by simp [walkSchema])
  | succ n ihn =>
    intro doc s pfx vis out W h
    simp only [walkSchema] at h
    cases ht : s.truthy with
    | false =>
      simp only [ht, Bool.not_false, if_true] at h
      cases h
      simp
    | true =>
      simp only [ht, Bool.not_true, Bool.false_eq_true, if_false] at h
      cases href : refStr s with
      | some r =>
        simp only [href] at h
        by_cases hc : vis.contains r = true
        · simp only [hc, if_true] at h
          cases h
          simp
        · simp only [hc, if_false, Bool.false_eq_true] at h
          exact ihn doc _ pfx _ out W h
      | none =>
        simp only [href] at h
        by_cases hall : lenTruthy (s.get? "allOf") = true
        · simp only [hall, if_true] at h
          refine foldl_walkStepAllOf_invariant (fun fi => fi.required = false) doc
            (fun sc v => walkSchema doc n sc pfx false v) ?_ _ _ _ _ h (by simp)
          intro part v po pW hwp
          exact ihn doc _ pfx _ po pW hwp
        · simp only [hall, if_false, Bool.false_eq_true] at h
          by_cases hone : (lenTruthy (s.get? "oneOf") || lenTruthy (s.get? "anyOf")) = true
          · simp only [hone, if_true] at h
            cases hts : (asArr ((s.getNN "oneOf") <|> (s.getNN "anyOf"))).mapM
                (fun u => schemaToTypeText doc n (some u)) with
            | none =>
              rw [hts] at h
              exact absurd h (by simp)
            | some ts =>
              rw [hts] at h
              cases h
              intro fi hfi
              rcases List.mem_singleton.mp hfi with rfl
              rfl
          · simp only [hone, if_false, Bool.false_eq_true] at h
            by_cases hobj : (typeStr s = some "object" ∨
                (typeStr s = none ∧ propsTruthy s = true))
            · rw [if_pos hobj] at h
              cases hpe : propsEntries s with
              | nil =>
                rw [hpe] at h
                cases hst : schemaToTypeText doc n (some s) with
                | none =>
                  rw [hst] at h
                  exact absurd h (by simp)
                | some t =>
                  rw [hst] at h
                  cases h
                  intro fi hfi
                  rcases List.mem_singleton.mp hfi with rfl
                  rfl
              | cons e es =>
                rw [hpe] at h
                refine foldl_walkStepProp_false_required doc pfx s
                  (fun sc q r v => walkSchema doc n sc q r v) (schemaToTypeText doc n)
                  ?_ _ _ _ _ h (by simp)
                intro sc q v po pW hwp
                exact ihn doc sc q v po pW hwp
            · rw [if_neg hobj] at h
              cases hst : schemaToTypeText doc n (some s) with
              | none =>
                rw [hst] at h
                exact absurd h (by simp)
              | some t =>
                rw [hst] at h
                cases h
                intro fi hfi
                rcases List.mem_singleton.mp hfi with rfl
                rfl

/-- Object `A` requiring property `b`, whose schema is object `B`
requiring property `c` (a string). -/
def nestedAB : Json :=
  .obj [("type", .str "object"), ("required", .arr [.str "b"]),
        ("properties", .obj [("b",
          .obj [("type", .str "object"), ("required", .arr [.str "c"]),
                ("properties", .obj [("c", .obj [("type", .str "string")])])])])]

/-- Same as `nestedAB` but `B` does not list `c` as required. -/
def nestedABnoC : Json :=
  .obj [("type", .str "object"), ("required", .arr [.str "b"]),
        ("properties", .obj [("b",
          .obj [("type", .str "object"),
                ("properties", .obj [("c", .obj [("type", .str "string")])])])])]

/-- C4: required-ness is a logical AND down the containment chain.  A
false flag absorbs everything below it (first conjunct: a walk started
as optional emits only optional descriptors, since every emitted or
propagated flag is `parentRequired && membership in the enclosing
required list`).  Concretely on `A{required:[b]} -> B{required:[c]} -> c`:
a required root yields `b.c` required; the same schema walked as
optional yields `b.c` optional even though `B` lists `c`; and a required
root with `B` not listing `c` yields `b.c` optional. -/
theorem C4_required_and_propagation :
    (∀ (n : Nat) (doc s : Json) (pfx : String) (vis : List String)
        (out : List FieldInfo) (W : List String),
      walkSchema doc n s pfx false vis = some (out, W) →
      ∀ fi ∈ out, fi.required = false) ∧
    flattenSchemaFields (Json.obj []) nestedAB 10
      = some [⟨"b.c", "string", true, none⟩] ∧
    walkSchema (Json.obj []) 10 nestedAB "" false []
      = some ([⟨"b.c", "string", false, none⟩], []) ∧
    flattenSchemaFields (Json.obj []) nestedABnoC 10
      = some [⟨"b.c", "string", false, none⟩] :=
  ⟨walk_false_required, rfl, rfl, rfl⟩

/-- Witness for C4: the false-absorption conjunct applied to the
descriptor the optional walk of `nestedAB` emits. -/
theorem C4_witness : (FieldInfo.mk "b.c" "string" false none).required = false :=
  C4_required_and_propagation.1 10 (Json.obj []) nestedAB "" [] _ []
    C4_required_and_propagation.2.2.1 (FieldInfo.mk "b.c" "string" false none)
    (List.mem_singleton.mpr rfl)

/-! ## The visited-set scope of the cycle guard (claim C2) -/

/-- The invariant every node handed to `walkSchema` satisfies: if it
still carries a truthy reference, that reference is unresolvable (a
successful one-hop resolution deletes the pointer, and every walked node
is a resolver image). -/
def RefInv (doc s : Json) : Prop :=
  ∀ r, refStr s = some r → resolveRef doc r = none

theorem refStr_resolveSchema_resolved (doc s d : Json) (r : String)
    (h : refStr s = some r) (h2 : resolveRef doc r = some d) :
    refStr (resolveSchema doc s) = none := by
  rw [resolveSchema_resolved doc s d r h h2]
  unfold refStr Json.getStr?
  rw [show (Json.obj (objDelete "$ref" (objMerge d.toFields s.toFields))).get? "$ref"
      = none from lookup_objDelete_self "$ref" _]

/-- Every resolver image satisfies the invariant. -/
theorem resolveSchema_refInv (doc x : Json) : RefInv doc (resolveSchema doc x) := by
  intro r hr
  cases h : refStr x with
  | none =>
    rw [resolveSchema_no_ref doc x h, h] at hr
    exact absurd hr (by simp)
  | some r0 =>
    cases h2 : resolveRef doc r0 with
    | none =>
      rw [resolveSchema_unresolvable doc x r0 h h2, h] at hr
      cases hr
      exact h2
    | some d =>
      rw [refStr_resolveSchema_resolved doc x d r0 h h2] at hr
      exact absurd hr (by simp)

theorem mapM_stt_mono (doc : Json) (n m : Nat)
    (hrec : ∀ (os : Option Json) (t : String),
      schemaToTypeText doc n os = some t → schemaToTypeText doc m os = some t) :
    ∀ (l : List Json) (ts : List String),
      l.mapM (fun u => schemaToTypeText doc n (some u)) = some ts →
      l.mapM (fun u => schemaToTypeText doc m (some u)) = some ts := by
  intro l
  induction l with
  | nil =>
    intro ts h
    simpa using h
  | cons u us ih =>
    intro ts h
    rw [List.mapM_cons] at h ⊢
    cases hu : schemaToTypeText doc n (some u) with
    | none =>
      rw [hu] at h
      simp at h
    | some t0 =>
      rw [hu] at h
      cases hus : us.mapM (fun u => schemaToTypeText doc n (some u)) with
      | none =>
        rw [hus] at h
        simp at h
      | some ts0 =>
        rw [hus] at h
        rw [hrec (some u) t0 hu, ih ts0 hus]
        exact h

/-- Fuel monotonicity of the type renderer: a result obtained at some
fuel is stable under more fuel. -/
theorem schemaToTypeText_mono :
    ∀ (n m : Nat), n ≤ m → ∀ (doc : Json) (os : Option Json) (t : String),
      schemaToTypeText doc n os = some t → schemaToTypeText doc m os = some t := by
  intro n
  induction n with
  | zero =>
    intro m _ doc os t h
    exact absurd h (by simp [schemaToTypeText])
  | succ n ihn =>
    intro m hnm doc os t h
    cases m with
    | zero => exact absurd hnm (by omega)
    | succ m0 =>
      have hnm0 : n ≤ m0 := by omega
      simp only [schemaToTypeText] at h ⊢
      cases os with
      | none => exact h
      | some j =>
        cases htr : j.truthy with
        | false =>
          simp only [htr, Bool.not_false, if_true] at h ⊢
          exact h
        | true =>
          simp only [htr, Bool.not_true, Bool.false_eq_true, if_false] at h ⊢
          cases hty : typeStr (resolveSchema doc j) with
          | none =>
            simp only [hty] at h ⊢
            by_cases hall : lenTruthy ((resolveSchema doc j).get? "allOf") = true
            · simp only [hall, if_true] at h ⊢
              cases hm : (asArr ((resolveSchema doc j).get? "allOf")).mapM
                  (fun x => schemaToTypeText doc n (some x)) with
              | none =>
                rw [hm] at h
                exact absurd h (by simp)
              | some ts =>
                rw [hm] at h
                rw [mapM_stt_mono doc n m0 (fun os t => ihn m0 hnm0 doc os t) _ ts hm]
                exact h
            · simp only [hall, if_false, Bool.false_eq_true] at h ⊢
              by_cases hone : lenTruthy ((resolveSchema doc j).get? "oneOf") = true
              · simp only [hone, if_true] at h ⊢
                cases hm : (asArr ((resolveSchema doc j).get? "oneOf")).mapM
                    (fun x => schemaToTypeText doc n (some x)) with
                | none =>
                  rw [hm] at h
                  exact absurd h (by simp)
                | some ts =>
                  rw [hm] at h
                  rw [mapM_stt_mono doc n m0 (fun os t => ihn m0 hnm0 doc os t) _ ts hm]
                  exact h
              · simp only [hone, if_false, Bool.false_eq_true] at h ⊢
                by_cases hany : lenTruthy ((resolveSchema doc j).get? "anyOf") = true
                · simp only [hany, if_true] at h ⊢
                  cases hm : (asArr ((resolveSchema doc j).get? "anyOf")).mapM
                      (fun x => schemaToTypeText doc n (some x)) with
                  | none =>
                    rw [hm] at h
                    exact absurd h (by simp)
                  | some ts =>
                    rw [hm] at h
                    rw [mapM_stt_mono doc n m0 (fun os t => ihn m0 hnm0 doc os t) _ ts hm]
                    exact h
                · simp only [hany, if_false, Bool.false_eq_true] at h ⊢
                  exact h
          | some ty =>
            simp only [hty] at h ⊢
            by_cases h64 : (ty = "integer" ∧ (formatStr (resolveSchema doc j) = some "int64"
                ∨ formatStr (resolveSchema doc j) = some "uint64"))
            · rw [if_pos h64] at h ⊢
              exact h
            · rw [if_neg h64] at h ⊢
              by_cases harr : ty = "array"
              · rw [if_pos harr] at h ⊢
                cases hit : schemaToTypeText doc n ((resolveSchema doc j).get? "items") with
                | none =>
                  rw [hit] at h
                  exact absurd h (by simp)
                | some t0 =>
                  rw [hit] at h
                  rw [ihn m0 hnm0 doc _ t0 hit]
                  exact h
              · rw [if_neg harr] at h ⊢
                by_cases hobj : ty = "object"
                · rw [if_pos hobj] at h ⊢
                  cases hap : (resolveSchema doc j).get? "additionalProperties" with
                  | none =>
                    rw [hap] at h
                    exact h
                  | some ap =>
                    rw [hap] at h
                    cases hto : ap.isTypeofObject with
                    | false =>
                      simp only [hto, Bool.false_eq_true, if_false] at h ⊢
                      exact h
                    | true =>
                      simp only [hto, if_true] at h ⊢
                      cases hsub : schemaToTypeText doc n (some ap) with
                      | none =>
                        rw [hsub] at h
                        exact absurd h (by simp)
                      | some t0 =>
                        rw [hsub] at h
                        rw [ihn m0 hnm0 doc _ t0 hsub]
                        exact h
                · rw [if_neg hobj] at h ⊢
                  exact h

theorem foldl_walkStepAllOf_mono (doc : Json)
    (walkA walkB : Json → List String → Option (List FieldInfo × List String))
    (hAB : ∀ sc v r, walkA sc v = some r → walkB sc v = some r) :
    ∀ (l : List Json) (o0 : List FieldInfo) (v0 : List String)
      (r : List FieldInfo × List String),
      l.foldl (walkStepAllOf doc walkA) (some (o0, v0)) = some r →
      l.foldl (walkStepAllOf doc walkB) (some (o0, v0)) = some r := by
  intro l
  induction l with
  | nil =>
    intro o0 v0 r h
    exact h
  | cons part rest ih =>
    intro o0 v0 r h
    rw [List.foldl_cons] at h ⊢
    cases hw1 : walkA (resolveSchema doc part) v0 with
    | none =>
      simp only [walkStepAllOf, hw1, foldl_walkStepAllOf_none] at h
      exact absurd h (by simp)
    | some p =>
      simp only [walkStepAllOf, hw1] at h
      simp only [walkStepAllOf, hAB _ _ _ hw1]
      exact ih (o0 ++ p.1) p.2 r h

theorem foldl_walkStepProp_mono (doc : Json) (pfx : String) (preq : Bool) (schema : Json)
    (walkA walkB : Json → String → Bool → List String → Option (List FieldInfo × List String))
    (sttA sttB : Option Json → Option String)
    (hAB : ∀ sc q b v r, walkA sc q b v = some r → walkB sc q b v = some r)
    (hst : ∀ os t, sttA os = some t → sttB os = some t) :
    ∀ (l : List (String × Json)) (o0 : List FieldInfo) (v0 : List String)
      (r : List FieldInfo × List String),
      l.foldl (walkStepProp doc pfx preq schema walkA sttA) (some (o0, v0)) = some r →
      l.foldl (walkStepProp doc pfx preq schema walkB sttB) (some (o0, v0)) = some r := by
  intro l
  induction l with
  | nil =>
    intro o0 v0 r h
    exact h
  | cons kc rest ih =>
    intro o0 v0 r h
    rw [List.foldl_cons] at h ⊢
    by_cases hleaf : (refStr (resolveSchema doc kc.2) = none ∧
        ¬ propsTruthy (resolveSchema doc kc.2) = true ∧
        ¬ typeStr (resolveSchema doc kc.2) = some "object" ∧
        ¬ typeStr (resolveSchema doc kc.2) = some "array")
    · cases hs1 : sttA (some (resolveSchema doc kc.2)) with
      | none =>
        simp only [walkStepProp, if_pos hleaf, hs1, foldl_walkStepProp_none] at h
        exact absurd h (by simp)
      | some t =>
        simp only [walkStepProp, if_pos hleaf, hs1] at h
        simp only [walkStepProp, if_pos hleaf, hst _ _ hs1]
        exact ih _ v0 r h
    · by_cases harr : typeStr (resolveSchema doc kc.2) = some "array"
      · cases hs1 : sttA (some (resolveSchema doc kc.2)) with
        | none =>
          simp only [walkStepProp, if_neg hleaf, if_pos harr, hs1,
            foldl_walkStepProp_none] at h
          exact absurd h (by simp)
        | some t =>
          simp only [walkStepProp, if_neg hleaf, if_pos harr, hs1] at h
          simp only [walkStepProp, if_neg hleaf, if_pos harr, hst _ _ hs1]
          exact ih _ v0 r h
      · cases hw1 : walkA (resolveSchema doc kc.2)
            (if pfx = "" then kc.1 else pfx ++ "." ++ kc.1)
            (preq && reqHas schema kc.1) v0 with
        | none =>
          simp only [walkStepProp, if_neg hleaf, if_neg harr, hw1,
            foldl_walkStepProp_none] at h
          exact absurd h (by simp)
        | some p =>
          simp only [walkStepProp, if_neg hleaf, if_neg harr, hw1] at h
          simp only [walkStepProp, if_neg hleaf, if_neg harr, hAB _ _ _ _ _ hw1]
          exact ih (o0 ++ p.1) p.2 r h

/-- Fuel monotonicity of the walk. -/
theorem walkSchema_mono :
    ∀ (n m : Nat), n ≤ m → ∀ (doc s : Json) (pfx : String) (preq : Bool)
      (vis : List String) (r : List FieldInfo × List String),
      walkSchema doc n s pfx preq vis = some r → walkSchema doc m s pfx preq vis = some r := by
  intro n
  induction n with
  | zero =>
    intro m _ doc s pfx preq vis r h
    exact absurd h (by simp [walkSchema])
  | succ n ihn =>
    intro m hnm doc s pfx preq vis r h
    cases m with
    | zero => exact absurd hnm (by omega)
    | succ m0 =>
      have hnm0 : n ≤ m0 := by omega
      simp only [walkSchema] at h ⊢
      cases ht : s.truthy with
      | false =>
        simp only [ht, Bool.not_false, if_true] at h ⊢
        exact h
      | true =>
        simp only [ht, Bool.not_true, Bool.false_eq_true, if_false] at h ⊢
        cases href : refStr s with
        | some rr =>
          simp only [href] at h ⊢
          by_cases hc : vis.contains rr = true
          · simp only [hc, if_true] at h ⊢
            exact h
          · simp only [hc, if_false, Bool.false_eq_true] at h ⊢
            exact ihn m0 hnm0 doc _ pfx preq _ r h
        | none =>
          simp only [href] at h ⊢
          by_cases hall : lenTruthy (s.get? "allOf") = true
          · simp only [hall, if_true] at h ⊢
            exact foldl_walkStepAllOf_mono doc _ _
              (fun sc v r hh => ihn m0 hnm0 doc sc pfx preq v r hh) _ _ _ r h
          · simp only [hall, if_false, Bool.false_eq_true] at h ⊢
            by_cases hone : (lenTruthy (s.get? "oneOf") || lenTruthy (s.get? "anyOf")) = true
            · simp only [hone, if_true] at h ⊢
              cases hts : (asArr ((s.getNN "oneOf") <|> (s.getNN "anyOf"))).mapM
                  (fun u => schemaToTypeText doc n (some u)) with
              | none =>
                rw [hts] at h
                exact absurd h (by simp)
              | some ts =>
                rw [hts] at h
                rw [mapM_stt_mono doc n m0
                  (fun os t => schemaToTypeText_mono n m0 hnm0 doc os t) _ ts hts]
                exact h
            · simp only [hone, if_false, Bool.false_eq_true] at h ⊢
              by_cases hobj : (typeStr s = some "object" ∨
                  (typeStr s = none ∧ propsTruthy s = true))
              · rw [if_pos hobj] at h ⊢
                cases hpe : propsEntries s with
                | nil =>
                  rw [hpe] at h
                  have h2 : (match schemaToTypeText doc n (some s) with
                      | none => none
                      | some t => some ([{ name := displayName pfx, type := t,
                                           required := preq, description := descStr s }],
                          vis)) = some r := h
                  show (match schemaToTypeText doc m0 (some s) with
                      | none => none
                      | some t => some ([{ name := displayName pfx, type := t,
                                           required := preq, description := descStr s }],
                          vis)) = some r
                  cases hst : schemaToTypeText doc n (some s) with
                  | none =>
                    rw [hst] at h2
                    exact absurd h2 (by simp)
                  | some t =>
                    rw [hst] at h2
                    rw [schemaToTypeText_mono n m0 hnm0 doc _ t hst]
                    exact h2
                | cons e es =>
                  rw [hpe] at h
                  have h2 : List.foldl (walkStepProp doc pfx preq s
                      (fun sc q r v => walkSchema doc n sc q r v) (schemaToTypeText doc n))
                      (some ([], vis)) (e :: es) = some r := h
                  show List.foldl (walkStepProp doc pfx preq s
                      (fun sc q r v => walkSchema doc m0 sc q r v) (schemaToTypeText doc m0))
                      (some ([], vis)) (e :: es) = some r
                  exact foldl_walkStepProp_mono doc pfx preq s _ _ _ _
                    (fun sc q b v r hh => ihn m0 hnm0 doc sc q b v r hh)
                    (fun os t hh => schemaToTypeText_mono n m0 hnm0 doc os t hh) _ _ _ r h2
              · rw [if_neg hobj] at h ⊢
                cases hst : schemaToTypeText doc n (some s) with
                | none =>
                  rw [hst] at h
                  exact absurd h (by simp)
                | some t =>
                  rw [hst] at h
                  rw [schemaToTypeText_mono n m0 hnm0 doc _ t hst]
                  exact h

/-- What the `allOf` loop emits does not depend on the incoming visited
set: the same descriptor tail is reproduced from any starting set (at
some sufficient fuel). -/
theorem foldl_walkStepAllOf_vis (doc : Json) (n : Nat) (pfx : String) (preq : Bool)
    (hrec : ∀ (sc : Json) (vis : List String) (out : List FieldInfo) (W : List String),
      RefInv doc sc → walkSchema doc n sc pfx preq vis = some (out, W) →
      ∀ vis2, ∃ m W2, walkSchema doc m sc pfx preq vis2 = some (out, W2)) :
    ∀ (l : List Json) (o0 : List FieldInfo) (v0 : List String)
      (r : List FieldInfo × List String),
      l.foldl (walkStepAllOf doc (fun sc v => walkSchema doc n sc pfx preq v))
        (some (o0, v0)) = some r →
      ∃ tail, r.1 = o0 ++ tail ∧
        ∀ (o2 : List FieldInfo) (v2 : List String), ∃ m W2,
          l.foldl (walkStepAllOf doc (fun sc v => walkSchema doc m sc pfx preq v))
            (some (o2, v2)) = some (o2 ++ tail, W2) := by
  intro l
  induction l with
  | nil =>
    intro o0 v0 r h
    cases h
    refine ⟨[], by simp, ?_⟩
    intro o2 v2
    exact ⟨0, v2, by simp⟩
  | cons part rest ih =>
    intro o0 v0 r h
    rw [List.foldl_cons] at h
    cases hw1 : walkSchema doc n (resolveSchema doc part) pfx preq v0 with
    | none =>
      simp only [walkStepAllOf, hw1, foldl_walkStepAllOf_none] at h
      exact absurd h (by simp)
    | some p =>
      simp only [walkStepAllOf, hw1] at h
      obtain ⟨tail2, htail2, hrecon2⟩ := ih (o0 ++ p.1) p.2 r h
      refine ⟨p.1 ++ tail2, by rw [htail2, List.append_assoc], ?_⟩
      intro o2 v2
      obtain ⟨m1, W1, hm1⟩ := hrec (resolveSchema doc part) v0 p.1 p.2
        (resolveSchema_refInv doc part) (by rw [hw1]) v2
      obtain ⟨m2, W2, hm2⟩ := hrecon2 (o2 ++ p.1) W1
      refine ⟨max m1 m2, W2, ?_⟩
      have hm1L : walkSchema doc (max m1 m2) (resolveSchema doc part) pfx preq v2
          = some (p.1, W1) :=
        walkSchema_mono m1 (max m1 m2) (le_max_left m1 m2) doc _ pfx preq v2 _ hm1
      have hm2L : rest.foldl
          (walkStepAllOf doc (fun sc v => walkSchema doc (max m1 m2) sc pfx preq v))
          (some (o2 ++ p.1, W1)) = some ((o2 ++ p.1) ++ tail2, W2) :=
        foldl_walkStepAllOf_mono doc _ _
          (fun sc v r hh => walkSchema_mono m2 (max m1 m2) (le_max_right m1 m2)
            doc sc pfx preq v r hh) rest _ _ _ hm2
      rw [List.foldl_cons]
      simp only [walkStepAllOf, hm1L]
      rw [hm2L, List.append_assoc]

/-- What the property loop emits does not depend on the incoming visited
set. -/
theorem foldl_walkStepProp_vis (doc : Json) (n : Nat) (pfx : String) (preq : Bool)
    (schema : Json)
    (hrec : ∀ (sc : Json) (q : String) (b : Bool) (vis : List String)
        (out : List FieldInfo) (W : List String),
      RefInv doc sc → walkSchema doc n sc q b vis = some (out, W) →
      ∀ vis2, ∃ m W2, walkSchema doc m sc q b vis2 = some (out, W2)) :
    ∀ (l : List (String × Json)) (o0 : List FieldInfo) (v0 : List String)
      (r : List FieldInfo × List String),
      l.foldl (walkStepProp doc pfx preq schema
        (fun sc q b v => walkSchema doc n sc q b v) (schemaToTypeText doc n))
        (some (o0, v0)) = some r →
      ∃ tail, r.1 = o0 ++ tail ∧
        ∀ (o2 : List FieldInfo) (v2 : List String), ∃ m W2,
          l.foldl (walkStepProp doc pfx preq schema
            (fun sc q b v => walkSchema doc m sc q b v) (schemaToTypeText doc m))
            (some (o2, v2)) = some (o2 ++ tail, W2) := by
  intro l
  induction l with
  | nil =>
    intro o0 v0 r h
    cases h
    refine ⟨[], by simp, ?_⟩
    intro o2 v2
    exact ⟨0, v2, by simp⟩
  | cons kc rest ih =>
    intro o0 v0 r h
    rw [List.foldl_cons] at h
    by_cases hleaf : (refStr (resolveSchema doc kc.2) = none ∧
        ¬ propsTruthy (resolveSchema doc kc.2) = true ∧
        ¬ typeStr (resolveSchema doc kc.2) = some "object" ∧
        ¬ typeStr (resolveSchema doc kc.2) = some "array")
    · cases hs1 : schemaToTypeText doc n (some (resolveSchema doc kc.2)) with
      | none =>
        simp only [walkStepProp, if_pos hleaf, hs1, foldl_walkStepProp_none] at h
        exact absurd h (by simp)
      | some t =>
        simp only [walkStepProp, if_pos hleaf, hs1] at h
        obtain ⟨tail2, htail2, hrecon2⟩ := ih _ v0 r h
        refine ⟨[⟨if pfx = "" then kc.1 else pfx ++ "." ++ kc.1, t,
            preq && reqHas schema kc.1, descStr (resolveSchema doc kc.2)⟩] ++ tail2,
          by rw [htail2, List.append_assoc], ?_⟩
        intro o2 v2
        obtain ⟨m2, W2, hm2⟩ := hrecon2
          (o2 ++ [⟨if pfx = "" then kc.1 else pfx ++ "." ++ kc.1, t,
            preq && reqHas schema kc.1, descStr (resolveSchema doc kc.2)⟩]) v2
        refine ⟨max n m2, W2, ?_⟩
        have hs1L : schemaToTypeText doc (max n m2) (some (resolveSchema doc kc.2))
            = some t :=
          schemaToTypeText_mono n (max n m2) (le_max_left n m2) doc _ t hs1
        have hm2L := foldl_walkStepProp_mono doc pfx preq schema _ _ _ _
          (fun sc q b v r hh => walkSchema_mono m2 (max n m2) (le_max_right n m2)
            doc sc q b v r hh)
          (fun os t hh => schemaToTypeText_mono m2 (max n m2) (le_max_right n m2)
            doc os t hh) rest _ _ _ hm2
        rw [List.foldl_cons]
        simp only [walkStepProp, if_pos hleaf, hs1L]
        rw [hm2L, List.append_assoc]
    · by_cases harr : typeStr (resolveSchema doc kc.2) = some "array"
      · cases hs1 : schemaToTypeText doc n (some (resolveSchema doc kc.2)) with
        | none =>
          simp only [walkStepProp, if_neg hleaf, if_pos harr, hs1,
            foldl_walkStepProp_none] at h
          exact absurd h (by simp)
        | some t =>
          simp only [walkStepProp, if_neg hleaf, if_pos harr, hs1] at h
          obtain ⟨tail2, htail2, hrecon2⟩ := ih _ v0 r h
          refine ⟨[⟨if pfx = "" then kc.1 else pfx ++ "." ++ kc.1, t,
              preq && reqHas schema kc.1, descStr (resolveSchema doc kc.2)⟩] ++ tail2,
            by rw [htail2, List.append_assoc], ?_⟩
          intro o2 v2
          obtain ⟨m2, W2, hm2⟩ := hrecon2
            (o2 ++ [⟨if pfx = "" then kc.1 else pfx ++ "." ++ kc.1, t,
              preq && reqHas schema kc.1, descStr (resolveSchema doc kc.2)⟩]) v2
          refine ⟨max n m2, W2, ?_⟩
          have hs1L : schemaToTypeText doc (max n m2) (some (resolveSchema doc kc.2))
              = some t :=
            schemaToTypeText_mono n (max n m2) (le_max_left n m2) doc _ t hs1
          have hm2L := foldl_walkStepProp_mono doc pfx preq schema _ _ _ _
            (fun sc q b v r hh => walkSchema_mono m2 (max n m2) (le_max_right n m2)
              doc sc q b v r hh)
            (fun os t hh => schemaToTypeText_mono m2 (max n m2) (le_max_right n m2)
              doc os t hh) rest _ _ _ hm2
          rw [List.foldl_cons]
          simp only [walkStepProp, if_neg hleaf, if_pos harr, hs1L]
          rw [hm2L, List.append_assoc]
      · cases hw1 : walkSchema doc n (resolveSchema doc kc.2)
            (if pfx = "" then kc.1 else pfx ++ "." ++ kc.1)
            (preq && reqHas schema kc.1) v0 with
        | none =>
          simp only [walkStepProp, if_neg hleaf, if_neg harr, hw1,
            foldl_walkStepProp_none] at h
          exact absurd h (by simp)
        | some p =>
          simp only [walkStepProp, if_neg hleaf, if_neg harr, hw1] at h
          obtain ⟨tail2, htail2, hrecon2⟩ := ih (o0 ++ p.1) p.2 r h
          refine ⟨p.1 ++ tail2, by rw [htail2, List.append_assoc], ?_⟩
          intro o2 v2
          obtain ⟨m1, W1, hm1⟩ := hrec (resolveSchema doc kc.2)
            (if pfx = "" then kc.1 else pfx ++ "." ++ kc.1)
            (preq && reqHas schema kc.1) v0 p.1 p.2
            (resolveSchema_refInv doc kc.2) (by rw [hw1]) v2
          obtain ⟨m2, W2, hm2⟩ := hrecon2 (o2 ++ p.1) W1
          refine ⟨max m1 m2, W2, ?_⟩
          have hm1L : walkSchema doc (max m1 m2) (resolveSchema doc kc.2)
              (if pfx = "" then kc.1 else pfx ++ "." ++ kc.1)
              (preq && reqHas schema kc.1) v2 = some (p.1, W1) :=
            walkSchema_mono m1 (max m1 m2) (le_max_left m1 m2) doc _ _ _ v2 _ hm1
          have hm2L := foldl_walkStepProp_mono doc pfx preq schema _ _ _ _
            (fun sc q b v r hh => walkSchema_mono m2 (max m1 m2) (le_max_right m1 m2)
              doc sc q b v r hh)
            (fun os t hh => schemaToTypeText_mono m2 (max m1 m2) (le_max_right m1 m2)
              doc os t hh) rest _ _ _ hm2
          rw [List.foldl_cons]
          simp only [walkStepProp, if_neg hleaf, if_neg harr, hm1L]
          rw [hm2L, List.append_assoc]

/-- The descriptors a walk emits do not depend on the incoming visited
set: whatever a sibling branch recorded in the shared set, this branch
still emits the same descriptors (under the invariant that any remaining
reference is unresolvable, which holds for every node the flattener
walks).  In particular a reference visited on one branch never suppresses
what a sibling branch emits. -/
theorem walk_vis_independent :
    ∀ (n : Nat) (doc s : Json) (pfx : String) (preq : Bool) (vis : List String)
      (out : List FieldInfo) (W : List String),
      RefInv doc s → walkSchema doc n s pfx preq vis = some (out, W) →
      ∀ vis2, ∃ m W2, walkSchema doc m s pfx preq vis2 = some (out, W2) := by
  intro n
  induction n with
  | zero =>
    intro doc s pfx preq vis out W _ h
    exact absurd h (by simp [walkSchema])
  | succ n ihn =>
    intro doc s pfx preq vis out W hInv h
    simp only [walkSchema] at h
    cases ht : s.truthy with
    | false =>
      simp only [ht, Bool.not_false, if_true] at h
      cases h
      intro vis2
      exact ⟨1, vis2, by simp only [walkSchema, ht, Bool.not_false, if_true]⟩
    | true =>
      simp only [ht, Bool.not_true, Bool.false_eq_true, if_false] at h
      cases href : refStr s with
      | some rr =>
        simp only [href] at h
        have hrr : resolveRef doc rr = none := hInv rr href
        have hres : resolveSchema doc s = s := resolveSchema_unresolvable doc s rr href hrr
        have hout : out = [] := by
          by_cases hc : vis.contains rr = true
          · simp only [hc, if_true] at h
            cases h
            rfl
          · simp only [hc, if_false, Bool.false_eq_true] at h
            rw [hres] at h
            cases n with
            | zero => exact absurd h (by simp [walkSchema])
            | succ n0 =>
              simp only [walkSchema, ht, Bool.not_true, Bool.false_eq_true, if_false,
                href] at h
              have hc2 : (rr :: vis).contains rr = true := by simp
              simp only [hc2, if_true] at h
              cases h
              rfl
        subst hout
        intro vis2
        by_cases hc2 : vis2.contains rr = true
        · exact ⟨1, vis2, by
            simp only [walkSchema, ht, Bool.not_true, Bool.false_eq_true, if_false,
              href, hc2, if_true]⟩
        · refine ⟨2, rr :: vis2, ?_⟩
          show walkSchema doc 2 s pfx preq vis2 = some ([], rr :: vis2)
          simp only [walkSchema, ht, Bool.not_true, Bool.false_eq_true, if_false,
            href, hc2, if_false]
          rw [hres]
          simp only [walkSchema, ht, Bool.not_true, Bool.false_eq_true, if_false, href]
          have hc3 : (rr :: vis2).contains rr = true := by simp
          simp only [hc3, if_true]
      | none =>
        simp only [href] at h
        by_cases hall : lenTruthy (s.get? "allOf") = true
        · simp only [hall, if_true] at h
          obtain ⟨tail, htail, hrecon⟩ := foldl_walkStepAllOf_vis doc n pfx preq
            (fun sc vis out W hi hw => ihn doc sc pfx preq vis out W hi hw) _ _ _ _ h
          intro vis2
          obtain ⟨m2, W2, hm2⟩ := hrecon [] vis2
          refine ⟨m2 + 1, W2, ?_⟩
          simp only [walkSchema, ht, Bool.not_true, Bool.false_eq_true, if_false,
            href, hall, if_true]
          rw [hm2]
          simp only [List.nil_append] at htail ⊢
          rw [htail]
        · simp only [hall, if_false, Bool.false_eq_true] at h
          by_cases hone : (lenTruthy (s.get? "oneOf") || lenTruthy (s.get? "anyOf")) = true
          · simp only [hone, if_true] at h
            cases hts : (asArr ((s.getNN "oneOf") <|> (s.getNN "anyOf"))).mapM
                (fun u => schemaToTypeText doc n (some u)) with
            | none =>
              rw [hts] at h
              exact absurd h (by simp)
            | some ts =>
              rw [hts] at h
              cases h
              intro vis2
              refine ⟨n + 1, vis2, ?_⟩
              simp only [walkSchema, ht, Bool.not_true, Bool.false_eq_true, if_false,
                href, hall, Bool.false_eq_true, if_false, hone, if_true]
              rw [hts]
          · simp only [hone, if_false, Bool.false_eq_true] at h
            by_cases hobj : (typeStr s = some "object" ∨
                (typeStr s = none ∧ propsTruthy s = true))
            · rw [if_pos hobj] at h
              cases hpe : propsEntries s with
              | nil =>
                rw [hpe] at h
                cases hst : schemaToTypeText doc n (some s) with
                | none =>
                  rw [hst] at h
                  exact absurd h (by simp)
                | some t =>
                  rw [hst] at h
                  cases h
                  intro vis2
                  refine ⟨n + 1, vis2, ?_⟩
                  simp only [walkSchema, ht, Bool.not_true, Bool.false_eq_true, if_false,
                    href, hall, if_false, hone, if_false]
                  rw [if_pos hobj, hpe, hst]
              | cons e es =>
                rw [hpe] at h
                obtain ⟨tail, htail, hrecon⟩ := foldl_walkStepProp_vis doc n pfx preq s
                  (fun sc q b vis out W hi hw => ihn doc sc q b vis out W hi hw) _ _ _ _ h
                intro vis2
                obtain ⟨m2, W2, hm2⟩ := hrecon [] vis2
                refine ⟨m2 + 1, W2, ?_⟩
                simp only [walkSchema, ht, Bool.not_true, Bool.false_eq_true, if_false,
                  href, hall, if_false, hone]
                rw [if_pos hobj, hpe]
                show List.foldl (walkStepProp doc pfx preq s
                    (fun sc q r v => walkSchema doc m2 sc q r v) (schemaToTypeText doc m2))
                    (some ([], vis2)) (e :: es) = some (out, W2)
                rw [hm2]
                simp only [List.nil_append] at htail ⊢
                rw [htail]
            · rw [if_neg hobj] at h
              cases hst : schemaToTypeText doc n (some s) with
              | none =>
                rw [hst] at h
                exact absurd h (by simp)
              | some t =>
                rw [hst] at h
                cases h
                intro vis2
                refine ⟨n + 1, vis2, ?_⟩
                simp only [walkSchema, ht, Bool.not_true, Bool.false_eq_true, if_false,
                  href, hall, if_false, hone]
                rw [if_neg hobj, hst]

/-- C2: whatever one branch of a flattening run records in the shared
visited-reference set never changes what a sibling branch emits.  Every
node the flattener hands to `walkSchema` — the pre-resolved root and
every pre-resolved recursive argument — satisfies `RefInv` (first
conjunct: any reference it still carries is unresolvable, because a
successful resolution deletes the pointer).  Under that invariant the
emitted descriptors are independent of the incoming visited set (second
conjunct), so a reference visited while flattening one branch does not
prevent a sibling branch from emitting everything it would have emitted
with a fresh set; the set only suppresses the expansion of the same
unresolvable reference, which emits nothing either way. -/
theorem C2_guard_does_not_block_siblings :
    (∀ doc x : Json, RefInv doc (resolveSchema doc x)) ∧
    (∀ (n : Nat) (doc s : Json) (pfx : String) (preq : Bool) (vis : List String)
        (out : List FieldInfo) (W : List String),
      RefInv doc s → walkSchema doc n s pfx preq vis = some (out, W) →
      ∀ vis2, ∃ m W2, walkSchema doc m s pfx preq vis2 = some (out, W2)) :=
  ⟨resolveSchema_refInv, walk_vis_independent⟩

/-- Witness for C2: a walk that ran with a reference already recorded by
another branch emits the same descriptor when re-run with an empty set. -/
theorem C2_witness :
    ∃ m W2, walkSchema (Json.obj []) m (.obj [("type", .str "string")]) "" true []
      = some ([⟨"(root)", "string", true, none⟩], W2) :=
  C2_guard_does_not_block_siblings.2 2 (Json.obj []) (.obj [("type", .str "string")])
    "" true ["#/x"] [⟨"(root)", "string", true, none⟩] ["#/x"]
    (fun _ hr => Option.noConfusion hr) rfl []
